import Mathlib

/-!
Verification of the authenticated-encryption core of `AES_encryptionSystem`
(`src/EncryptionSystem/AES_logic.py`).

The repository's `AES_logic.py` implements the AES block cipher (key schedule,
`encrypt_block`, `decrypt_block`), CBC chaining (`encrypt_cbc`, `decrypt_cbc`)
and the authenticated `encrypt`/`decrypt` API.  It imports a helper module
`encryption_logic` (constant tables and the byte-level primitives
`bytes2matrix`, `sub_bytes`, `shift_rows`, `mix_columns`, `pad`, `unpad`,
`split_blocks`, `xor_bytes`, ...) that is not part of the repository snapshot;
those helpers are modelled here from the specification (standard AES tables and
primitives, PKCS#7 padding).  The Python standard-library collaborators
(`pbkdf2_hmac`, `hmac`, `os.urandom`, UTF-8 codecs) are modelled as explicit
parameters or as spec-level functions.

Bytes are modelled as `Nat` values, byte strings as `List Nat`; Python
exceptions become an explicit error type, and fallible operations return
`Except`/`Option`.
-/

set_option maxRecDepth 8000

namespace AESLogic

/-- Byte strings: each element is intended to lie below 256. -/
abbrev Bytes := List Nat

/-- Modelled from the spec: the fixed 256-entry AES substitution table
(`encryption_logic.s_box`, the missing helper module); the spec requires the
standard table since block outputs must match the published AES test vectors. -/
def s_box : Bytes :=
  [0x63, 0x7c, 0x77, 0x7b, 0xf2, 0x6b, 0x6f, 0xc5, 0x30, 0x01, 0x67, 0x2b, 0xfe, 0xd7, 0xab, 0x76,
   0xca, 0x82, 0xc9, 0x7d, 0xfa, 0x59, 0x47, 0xf0, 0xad, 0xd4, 0xa2, 0xaf, 0x9c, 0xa4, 0x72, 0xc0,
   0xb7, 0xfd, 0x93, 0x26, 0x36, 0x3f, 0xf7, 0xcc, 0x34, 0xa5, 0xe5, 0xf1, 0x71, 0xd8, 0x31, 0x15,
   0x04, 0xc7, 0x23, 0xc3, 0x18, 0x96, 0x05, 0x9a, 0x07, 0x12, 0x80, 0xe2, 0xeb, 0x27, 0xb2, 0x75,
   0x09, 0x83, 0x2c, 0x1a, 0x1b, 0x6e, 0x5a, 0xa0, 0x52, 0x3b, 0xd6, 0xb3, 0x29, 0xe3, 0x2f, 0x84,
   0x53, 0xd1, 0x00, 0xed, 0x20, 0xfc, 0xb1, 0x5b, 0x6a, 0xcb, 0xbe, 0x39, 0x4a, 0x4c, 0x58, 0xcf,
   0xd0, 0xef, 0xaa, 0xfb, 0x43, 0x4d, 0x33, 0x85, 0x45, 0xf9, 0x02, 0x7f, 0x50, 0x3c, 0x9f, 0xa8,
   0x51, 0xa3, 0x40, 0x8f, 0x92, 0x9d, 0x38, 0xf5, 0xbc, 0xb6, 0xda, 0x21, 0x10, 0xff, 0xf3, 0xd2,
   0xcd, 0x0c, 0x13, 0xec, 0x5f, 0x97, 0x44, 0x17, 0xc4, 0xa7, 0x7e, 0x3d, 0x64, 0x5d, 0x19, 0x73,
   0x60, 0x81, 0x4f, 0xdc, 0x22, 0x2a, 0x90, 0x88, 0x46, 0xee, 0xb8, 0x14, 0xde, 0x5e, 0x0b, 0xdb,
   0xe0, 0x32, 0x3a, 0x0a, 0x49, 0x06, 0x24, 0x5c, 0xc2, 0xd3, 0xac, 0x62, 0x91, 0x95, 0xe4, 0x79,
   0xe7, 0xc8, 0x37, 0x6d, 0x8d, 0xd5, 0x4e, 0xa9, 0x6c, 0x56, 0xf4, 0xea, 0x65, 0x7a, 0xae, 0x08,
   0xba, 0x78, 0x25, 0x2e, 0x1c, 0xa6, 0xb4, 0xc6, 0xe8, 0xdd, 0x74, 0x1f, 0x4b, 0xbd, 0x8b, 0x8a,
   0x70, 0x3e, 0xb5, 0x66, 0x48, 0x03, 0xf6, 0x0e, 0x61, 0x35, 0x57, 0xb9, 0x86, 0xc1, 0x1d, 0x9e,
   0xe1, 0xf8, 0x98, 0x11, 0x69, 0xd9, 0x8e, 0x94, 0x9b, 0x1e, 0x87, 0xe9, 0xce, 0x55, 0x28, 0xdf,
   0x8c, 0xa1, 0x89, 0x0d, 0xbf, 0xe6, 0x42, 0x68, 0x41, 0x99, 0x2d, 0x0f, 0xb0, 0x54, 0xbb, 0x16]

/-- Modelled from the spec: the inverse substitution table
(`encryption_logic.inv_s_box` of the missing helper module). -/
def inv_s_box : Bytes :=
  [0x52, 0x09, 0x6a, 0xd5, 0x30, 0x36, 0xa5, 0x38, 0xbf, 0x40, 0xa3, 0x9e, 0x81, 0xf3, 0xd7, 0xfb,
   0x7c, 0xe3, 0x39, 0x82, 0x9b, 0x2f, 0xff, 0x87, 0x34, 0x8e, 0x43, 0x44, 0xc4, 0xde, 0xe9, 0xcb,
   0x54, 0x7b, 0x94, 0x32, 0xa6, 0xc2, 0x23, 0x3d, 0xee, 0x4c, 0x95, 0x0b, 0x42, 0xfa, 0xc3, 0x4e,
   0x08, 0x2e, 0xa1, 0x66, 0x28, 0xd9, 0x24, 0xb2, 0x76, 0x5b, 0xa2, 0x49, 0x6d, 0x8b, 0xd1, 0x25,
   0x72, 0xf8, 0xf6, 0x64, 0x86, 0x68, 0x98, 0x16, 0xd4, 0xa4, 0x5c, 0xcc, 0x5d, 0x65, 0xb6, 0x92,
   0x6c, 0x70, 0x48, 0x50, 0xfd, 0xed, 0xb9, 0xda, 0x5e, 0x15, 0x46, 0x57, 0xa7, 0x8d, 0x9d, 0x84,
   0x90, 0xd8, 0xab, 0x00, 0x8c, 0xbc, 0xd3, 0x0a, 0xf7, 0xe4, 0x58, 0x05, 0xb8, 0xb3, 0x45, 0x06,
   0xd0, 0x2c, 0x1e, 0x8f, 0xca, 0x3f, 0x0f, 0x02, 0xc1, 0xaf, 0xbd, 0x03, 0x01, 0x13, 0x8a, 0x6b,
   0x3a, 0x91, 0x11, 0x41, 0x4f, 0x67, 0xdc, 0xea, 0x97, 0xf2, 0xcf, 0xce, 0xf0, 0xb4, 0xe6, 0x73,
   0x96, 0xac, 0x74, 0x22, 0xe7, 0xad, 0x35, 0x85, 0xe2, 0xf9, 0x37, 0xe8, 0x1c, 0x75, 0xdf, 0x6e,
   0x47, 0xf1, 0x1a, 0x71, 0x1d, 0x29, 0xc5, 0x89, 0x6f, 0xb7, 0x62, 0x0e, 0xaa, 0x18, 0xbe, 0x1b,
   0xfc, 0x56, 0x3e, 0x4b, 0xc6, 0xd2, 0x79, 0x20, 0x9a, 0xdb, 0xc0, 0xfe, 0x78, 0xcd, 0x5a, 0xf4,
   0x1f, 0xdd, 0xa8, 0x33, 0x88, 0x07, 0xc7, 0x31, 0xb1, 0x12, 0x10, 0x59, 0x27, 0x80, 0xec, 0x5f,
   0x60, 0x51, 0x7f, 0xa9, 0x19, 0xb5, 0x4a, 0x0d, 0x2d, 0xe5, 0x7a, 0x9f, 0x93, 0xc9, 0x9c, 0xef,
   0xa0, 0xe0, 0x3b, 0x4d, 0xae, 0x2a, 0xf5, 0xb0, 0xc8, 0xeb, 0xbb, 0x3c, 0x83, 0x53, 0x99, 0x61,
   0x17, 0x2b, 0x04, 0x7e, 0xba, 0x77, 0xd6, 0x26, 0xe1, 0x69, 0x14, 0x63, 0x55, 0x21, 0x0c, 0x7d]

/-- Modelled from the spec: the round constants (`encryption_logic.r_con`);
index 0 is unused, `AES._expand_key` reads `r_con[i]` starting at `i = 1`. -/
def r_con : Bytes :=
  [0x00, 0x01, 0x02, 0x04, 0x08, 0x10, 0x20, 0x40,
   0x80, 0x1b, 0x36, 0x6c, 0xd8, 0xab, 0x4d, 0x9a]

/-- Table lookup, `table[b]` (out-of-range reads default to 0; the Python code
never indexes out of range on the inputs we consider). -/
def sboxAt (table : Bytes) (b : Nat) : Nat := table.getD b 0

/-- Modelled from the spec: the `xtime` doubling step of GF(2^8) multiplication
with the standard AES reduction polynomial 0x11b. -/
def xtime (x : Nat) : Nat :=
  ((x <<< 1) ^^^ (if x.testBit 7 then 0x1b else 0)) &&& 0xff

/-- Russian-peasant loop for GF(2^8) multiplication: XOR in `x` whenever the
current bit of `a` is set, doubling `x` with `xtime` each step.  The `fuel`
argument only bounds the recursion (structurally); `fuel = 8` covers every
byte-sized constant. -/
def gmulAux : Nat → Nat → Nat → Nat
  | 0, _, _ => 0
  | (fuel + 1), a, x =>
    if a = 0 then 0
    else (if a % 2 = 1 then x else 0) ^^^ gmulAux fuel (a / 2) (xtime x)

/-- Modelled from the spec: multiplication in GF(2^8) ("multiply each column by
a fixed 4x4 matrix over GF(2^8) with the standard AES reduction polynomial"). -/
def gmul (a x : Nat) : Nat := gmulAux 8 a x

/-- One 4-byte word of the state or key schedule (`bytes2matrix` groups byte
strings into rows of four bytes; each such row is one AES column). -/
structure Word where
  a : Nat
  b : Nat
  c : Nat
  d : Nat
  deriving DecidableEq, Repr

/-- The 4x4 byte state: four 4-byte words, exactly the `bytes2matrix` image of
a 16-byte block (word `wi` holds bytes `4*i .. 4*i+3`). -/
structure Mat where
  w0 : Word
  w1 : Word
  w2 : Word
  w3 : Word
  deriving DecidableEq, Repr

def zeroW : Word := ⟨0, 0, 0, 0⟩

def zeroM : Mat := ⟨zeroW, zeroW, zeroW, zeroW⟩

/-- Byte-wise XOR of two words (`encryption_logic.xor_bytes` on 4-byte rows). -/
def wxor (u v : Word) : Word :=
  ⟨u.a ^^^ v.a, u.b ^^^ v.b, u.c ^^^ v.c, u.d ^^^ v.d⟩

/-- Modelled from the spec: `add_round_key` XORs state and round-key matrix
byte-wise. -/
def add_round_key (s k : Mat) : Mat :=
  ⟨wxor s.w0 k.w0, wxor s.w1 k.w1, wxor s.w2 k.w2, wxor s.w3 k.w3⟩

/-- Substitute every byte of a word through a table. -/
def subWordT (table : Bytes) (w : Word) : Word :=
  ⟨sboxAt table w.a, sboxAt table w.b, sboxAt table w.c, sboxAt table w.d⟩

/-- Modelled from the spec: `sub_bytes` replaces every state byte via the
substitution table. -/
def sub_bytes (m : Mat) : Mat :=
  ⟨subWordT s_box m.w0, subWordT s_box m.w1, subWordT s_box m.w2, subWordT s_box m.w3⟩

/-- Modelled from the spec: `inv_sub_bytes` uses the inverse table. -/
def inv_sub_bytes (m : Mat) : Mat :=
  ⟨subWordT inv_s_box m.w0, subWordT inv_s_box m.w1,
   subWordT inv_s_box m.w2, subWordT inv_s_box m.w3⟩

/-- Modelled from the spec: `shift_rows` cyclically left-rotates matrix row `r`
by `r` positions.  With the `bytes2matrix` layout, row `r` consists of field
`r` of each word, so the rotated state reads field `r` from word `i + r`. -/
def shift_rows (m : Mat) : Mat :=
  ⟨⟨m.w0.a, m.w1.b, m.w2.c, m.w3.d⟩,
   ⟨m.w1.a, m.w2.b, m.w3.c, m.w0.d⟩,
   ⟨m.w2.a, m.w3.b, m.w0.c, m.w1.d⟩,
   ⟨m.w3.a, m.w0.b, m.w1.c, m.w2.d⟩⟩

/-- Modelled from the spec: `inv_shift_rows` rotates each row right by its
index. -/
def inv_shift_rows (m : Mat) : Mat :=
  ⟨⟨m.w0.a, m.w3.b, m.w2.c, m.w1.d⟩,
   ⟨m.w1.a, m.w0.b, m.w3.c, m.w2.d⟩,
   ⟨m.w2.a, m.w1.b, m.w0.c, m.w3.d⟩,
   ⟨m.w3.a, m.w2.b, m.w1.c, m.w0.d⟩⟩

/-- One GF(2^8) inner product of a fixed coefficient row with a word. -/
def m4 (c0 c1 c2 c3 : Nat) (w : Word) : Nat :=
  gmul c0 w.a ^^^ gmul c1 w.b ^^^ gmul c2 w.c ^^^ gmul c3 w.d

/-- Modelled from the spec: `mix_columns` multiplies each column (= word) by
the standard AES matrix [[2,3,1,1],[1,2,3,1],[1,1,2,3],[3,1,1,2]]. -/
def mixW (w : Word) : Word :=
  ⟨m4 2 3 1 1 w, m4 1 2 3 1 w, m4 1 1 2 3 w, m4 3 1 1 2 w⟩

/-- Modelled from the spec: `inv_mix_columns` uses the inverse matrix
[[14,11,13,9],[9,14,11,13],[13,9,14,11],[11,13,9,14]]. -/
def invMixW (w : Word) : Word :=
  ⟨m4 14 11 13 9 w, m4 9 14 11 13 w, m4 13 9 14 11 w, m4 11 13 9 14 w⟩

def mix_columns (m : Mat) : Mat :=
  ⟨mixW m.w0, mixW m.w1, mixW m.w2, mixW m.w3⟩

def inv_mix_columns (m : Mat) : Mat :=
  ⟨invMixW m.w0, invMixW m.w1, invMixW m.w2, invMixW m.w3⟩

/-- Modelled from the spec: `bytes2matrix` groups a byte string into 4-byte
words ("treat the key as a sequence of 4-byte words"). -/
def bytesToWords : Bytes → List Word
  | a :: b :: c :: d :: rest => ⟨a, b, c, d⟩ :: bytesToWords rest
  | _ => []

/-- The `bytes2matrix` conversion specialised to one 16-byte block. -/
def bytes2matrix (bs : Bytes) : Mat :=
  ⟨⟨bs.getD 0 0, bs.getD 1 0, bs.getD 2 0, bs.getD 3 0⟩,
   ⟨bs.getD 4 0, bs.getD 5 0, bs.getD 6 0, bs.getD 7 0⟩,
   ⟨bs.getD 8 0, bs.getD 9 0, bs.getD 10 0, bs.getD 11 0⟩,
   ⟨bs.getD 12 0, bs.getD 13 0, bs.getD 14 0, bs.getD 15 0⟩⟩

/-- Modelled from the spec: `matrix2bytes`, flattening the state back to 16
bytes. -/
def matrix2bytes (m : Mat) : Bytes :=
  [m.w0.a, m.w0.b, m.w0.c, m.w0.d,
   m.w1.a, m.w1.b, m.w1.c, m.w1.d,
   m.w2.a, m.w2.b, m.w2.c, m.w2.d,
   m.w3.a, m.w3.b, m.w3.c, m.w3.d]

/-- The round-count mapping `AES.rounds_by_key_size = {16: 10, 24: 12, 32: 14}`. -/
def rounds_by_key_size (n : Nat) : Option Nat :=
  if n = 16 then some 10 else if n = 24 then some 12 else if n = 32 then some 14 else none

/-- The `while` loop of `AES._expand_key`: `fuel` words remain to be appended,
`i` is the round-constant counter, and `rev` holds the schedule words in
reverse (head = most recent), so `key_columns[-1]` is `rev.headD` and
`key_columns[-iteration_size]` is `rev.getD (iteration_size - 1)`. -/
def expandLoop (keyLen : Nat) : Nat → Nat → List Word → List Word
  | 0, _, rev => rev
  | (fuel + 1), i, rev =>
    let n4 := keyLen / 4
    let prev := rev.headD zeroW
    let word :=
      if rev.length % n4 = 0 then
        let r := subWordT s_box ⟨prev.b, prev.c, prev.d, prev.a⟩
        ⟨r.a ^^^ r_con.getD i 0, r.b, r.c, r.d⟩
      else if keyLen = 32 ∧ rev.length % n4 = 4 then
        subWordT s_box prev
      else prev
    let i' := if rev.length % n4 = 0 then i + 1 else i
    expandLoop keyLen fuel i' (wxor word (rev.getD (n4 - 1) zeroW) :: rev)

/-- Group consecutive 4-word runs into 4x4 round-key matrices
(`[key_columns[4*i : 4*(i+1)] for i in range(len(key_columns) // 4)]`). -/
def groupMats : List Word → List Mat
  | a :: b :: c :: d :: rest => ⟨a, b, c, d⟩ :: groupMats rest
  | _ => []

/-- `AES._expand_key`: seed the schedule with the key's words and append words
until `(n_rounds + 1) * 4` are present, then group them into matrices. -/
def expand_key (master_key : Bytes) (n_rounds : Nat) : List Mat :=
  let init := bytesToWords master_key
  let total := (n_rounds + 1) * 4
  groupMats (expandLoop master_key.length (total - init.length) 1 init.reverse).reverse

/-- The `AES` class: `n_rounds` and `_key_matrices` as set up by `__init__`
(the constructor's length assert is reflected in the theorems' hypotheses). -/
structure AES where
  n_rounds : Nat
  key_matrices : List Mat

/-- `AES.__init__`. -/
def AES.new (master_key : Bytes) : AES :=
  let n := (rounds_by_key_size master_key.length).getD 0
  ⟨n, expand_key master_key n⟩

/-- `AES.encrypt_block`: initial whitening, `n_rounds - 1` full rounds over
`range(1, n_rounds)`, then the final round without MixColumns. -/
def AES.encrypt_block (aes : AES) (plaintext : Bytes) : Bytes :=
  let s0 := add_round_key (bytes2matrix plaintext) (aes.key_matrices.getD 0 zeroM)
  let s1 := (List.range' 1 (aes.n_rounds - 1)).foldl
    (fun s i =>
      add_round_key (mix_columns (shift_rows (sub_bytes s))) (aes.key_matrices.getD i zeroM))
    s0
  matrix2bytes
    (add_round_key (shift_rows (sub_bytes s1))
      (aes.key_matrices.getD (aes.key_matrices.length - 1) zeroM))

/-- `AES.decrypt_block`: the inverse operations with the round keys taken in
reverse order (`range(n_rounds - 1, 0, -1)`). -/
def AES.decrypt_block (aes : AES) (ciphertext : Bytes) : Bytes :=
  let s0 := inv_sub_bytes (inv_shift_rows
    (add_round_key (bytes2matrix ciphertext)
      (aes.key_matrices.getD (aes.key_matrices.length - 1) zeroM)))
  let s1 := ((List.range' 1 (aes.n_rounds - 1)).reverse).foldl
    (fun s i =>
      inv_sub_bytes (inv_shift_rows (inv_mix_columns
        (add_round_key s (aes.key_matrices.getD i zeroM)))))
    s0
  matrix2bytes (add_round_key s1 (aes.key_matrices.getD 0 zeroM))

/-- Modelled from the spec: `encryption_logic.xor_bytes` on byte strings. -/
def xor_bytes (u v : Bytes) : Bytes := List.zipWith (· ^^^ ·) u v

/-- Modelled from the spec: PKCS#7 `pad` — append `16 - (len mod 16)` bytes,
each equal to that pad length (a full extra block when already aligned). -/
def pad (plaintext : Bytes) : Bytes :=
  let n := 16 - plaintext.length % 16
  plaintext ++ List.replicate n n

/-- Modelled from the spec: PKCS#7 `unpad` — read the last byte as the declared
pad length `p`, validate `1 ≤ p ≤ 16` and that the last `p` bytes all equal
`p`, and strip them; an invalid pad is a distinct error (`none`). -/
def unpad (data : Bytes) : Option Bytes :=
  match data.getLast? with
  | none => none
  | some p =>
    if 1 ≤ p ∧ p ≤ 16 ∧ p ≤ data.length ∧ (data.drop (data.length - p)).all (· == p) then
      some (data.take (data.length - p))
    else none

/-- Block-splitting loop with a structural fuel bound (any `fuel` at least the
list length yields the same result). -/
def splitAux : Nat → Bytes → List Bytes
  | 0, _ => []
  | (fuel + 1), l => if l = [] then [] else l.take 16 :: splitAux fuel (l.drop 16)

/-- Modelled from the spec: `split_blocks` splits a byte string into
consecutive 16-byte blocks. -/
def split_blocks (l : Bytes) : List Bytes := splitAux l.length l

/-- The block-chaining loop of `AES.encrypt_cbc`: XOR each plaintext block
with the previous ciphertext block (initially the IV), encrypt, emit. -/
def cbcEncBlocks (aes : AES) : List Bytes → Bytes → List Bytes
  | [], _ => []
  | (b :: bs), prev =>
    let c := aes.encrypt_block (xor_bytes b prev)
    c :: cbcEncBlocks aes bs c

/-- `AES.encrypt_cbc`: pad, split into blocks, chain, and concatenate. -/
def AES.encrypt_cbc (aes : AES) (plaintext iv : Bytes) : Bytes :=
  (cbcEncBlocks aes (split_blocks (pad plaintext)) iv).flatten

/-- The chaining loop of `AES.decrypt_cbc`: decrypt each ciphertext block and
XOR with the previous ciphertext block (initially the IV). -/
def cbcDecBlocks (aes : AES) : List Bytes → Bytes → List Bytes
  | [], _ => []
  | (c :: cs), prev => xor_bytes prev (aes.decrypt_block c) :: cbcDecBlocks aes cs c

/-- `AES.decrypt_cbc`: chain-decrypt then strip PKCS#7 padding (`none` models
the padding error). -/
def AES.decrypt_cbc (aes : AES) (ciphertext iv : Bytes) : Option Bytes :=
  unpad (cbcDecBlocks aes (split_blocks ciphertext) iv).flatten

/-- The error taxonomy: the module's exception classes plus the two kinds of
`assert` failure (`ContractViolation` for the structural/length asserts and
`IntegrityFailure` for the tag-comparison assert) and the Python
`UnicodeDecodeError` that `plaintext.decode` can raise. -/
inductive Err where
  | EmptyKey
  | EmptyMessage
  | InvalidKeyLength
  | UnsupportedMessageType
  | IntegrityFailure
  | PaddingError
  | ContractViolation
  | DecodeError
  deriving DecidableEq, Repr

/-- Modelled from the spec: UTF-8 encoding of one Unicode code point
(Python's `str.encode` on one character). -/
def utf8EncodeChar (c : Nat) : Bytes :=
  if c < 0x80 then [c]
  else if c < 0x800 then [0xc0 + c / 64, 0x80 + c % 64]
  else if c < 0x10000 then [0xe0 + c / 4096, 0x80 + c / 64 % 64, 0x80 + c % 64]
  else [0xf0 + c / 262144, 0x80 + c / 4096 % 64, 0x80 + c / 64 % 64, 0x80 + c % 64]

/-- Modelled from the spec: `str.encode` as UTF-8 over a list of code points. -/
def utf8Encode (s : List Nat) : Bytes := (s.map utf8EncodeChar).flatten

/-- Is `b` a UTF-8 continuation byte? -/
def isCont (b : Nat) : Bool := 0x80 ≤ b && b < 0xc0

/-- Modelled from the spec: decode one UTF-8-encoded code point from its lead
byte `b1` and the remaining input, returning the code point and the bytes
left over (overlong forms, surrogates and out-of-range leads rejected, as
CPython does). -/
def utf8DecodeOne (b1 : Nat) (rest : Bytes) : Option (Nat × Bytes) :=
  if b1 < 0x80 then some (b1, rest)
  else if b1 < 0xc2 then none
  else if b1 < 0xe0 then
    match rest with
    | b2 :: rest2 =>
      if isCont b2 then some ((b1 - 0xc0) * 64 + (b2 - 0x80), rest2) else none
    | [] => none
  else if b1 < 0xf0 then
    match rest with
    | b2 :: b3 :: rest3 =>
      if isCont b2 && isCont b3 && (b1 ≠ 0xe0 || 0xa0 ≤ b2) && (b1 ≠ 0xed || b2 < 0xa0) then
        some ((b1 - 0xe0) * 4096 + (b2 - 0x80) * 64 + (b3 - 0x80), rest3)
      else none
    | _ => none
  else if b1 < 0xf5 then
    match rest with
    | b2 :: b3 :: b4 :: rest4 =>
      if isCont b2 && isCont b3 && isCont b4 &&
          (b1 ≠ 0xf0 || 0x90 ≤ b2) && (b1 ≠ 0xf4 || b2 < 0x90) then
        some ((b1 - 0xf0) * 262144 + (b2 - 0x80) * 4096 + (b3 - 0x80) * 64 + (b4 - 0x80),
          rest4)
      else none
    | _ => none
  else none

/-- The decoding loop, structurally recursive on a fuel bound (any fuel at
least the input length yields the same result, since every code point consumes
at least one byte). -/
def utf8DecodeAux : Nat → Bytes → Option (List Nat)
  | _, [] => some []
  | 0, _ :: _ => none
  | (fuel + 1), b1 :: rest =>
    match utf8DecodeOne b1 rest with
    | none => none
    | some (c, rest2) => (utf8DecodeAux fuel rest2).map (c :: ·)

/-- Modelled from the spec: `bytes.decode` as UTF-8, returning the decoded
code points, or `none` on malformed input (Python raises
`UnicodeDecodeError`). -/
def utf8Decode (l : Bytes) : Option (List Nat) := utf8DecodeAux l.length l

/-- A key or message argument of the public API: Python accepts either a byte
string or text (a list of Unicode code points). -/
inductive Inp where
  | bytes (b : Bytes)
  | str (s : List Nat)

/-- Python `len` on an API argument (code-point count for text). -/
def Inp.len : Inp → Nat
  | .bytes b => b.length
  | .str s => s.length

/-- The `key.encode('utf-8') if isinstance(key, str)` coercion. -/
def Inp.toBytes : Inp → Bytes
  | .bytes b => b
  | .str s => utf8Encode s

/-- The signature of `pbkdf2_hmac` as used by `get_key_iv`: password, salt and
workload to 48 bytes of stretched key material (the Python standard-library
function itself is external to the repository, so theorems quantify over it). -/
abbrev Kdf := Bytes → Bytes → Nat → Bytes

/-- The signature of `hmac.new(key, msg, 'sha256').digest()`: key and message
to a 32-byte tag (external, quantified over in the theorems). -/
abbrev HmacF := Bytes → Bytes → Bytes

/-- `get_key_iv`: stretch the password and slice off the AES key, the HMAC key
and the IV, 16 bytes each, in that order. -/
def get_key_iv (kdf : Kdf) (password salt : Bytes) (workload : Nat) :
    Bytes × Bytes × Bytes :=
  let stretched := kdf password salt workload
  let aes_key := stretched.take 16
  let rest := stretched.drop 16
  let hmac_key := rest.take 16
  let iv := (rest.drop 16).take 16
  (aes_key, hmac_key, iv)

/-- `validate_encryption_inputs` (key and plaintext already coerced to bytes,
as `encrypt` does before calling it): empty key, empty message, key length,
then the ASCII check over the UTF-8 decoding of the plaintext. -/
def validate_encryption_inputs (key plaintext : Bytes) : Option Err :=
  if key.length = 0 then some .EmptyKey
  else if plaintext.length = 0 then some .EmptyMessage
  else if ¬(key.length = 16 ∨ key.length = 24 ∨ key.length = 32) then some .InvalidKeyLength
  else
    match utf8Decode plaintext with
    | none => some .DecodeError
    | some chars => if chars.any (fun c => 127 < c) then some .UnsupportedMessageType else none

/-- `validate_decryption_inputs`: empty key, empty blob, then key length —
measured on the *original* argument (code-point count for a text key). -/
def validate_decryption_inputs (key : Inp) (ciphertext : Bytes) : Option Err :=
  if key.len = 0 then some .EmptyKey
  else if ciphertext.length = 0 then some .EmptyMessage
  else if ¬(key.len = 16 ∨ key.len = 24 ∨ key.len = 32) then some .InvalidKeyLength
  else none

/-- `encrypt(key, plaintext, workload)`.  The fresh random salt drawn by
`os.urandom(16)` is passed explicitly, and the standard-library `pbkdf2_hmac`
and HMAC functions are parameters.  The `assert len(hmac) == HMAC_SIZE` is the
`ContractViolation` branch. -/
def encrypt (kdf : Kdf) (hmacF : HmacF) (salt : Bytes) (key plaintext : Inp)
    (workload : Nat) : Except Err Bytes :=
  let keyB := key.toBytes
  let ptB := plaintext.toBytes
  match validate_encryption_inputs keyB ptB with
  | some e => .error e
  | none =>
    let (aes_key, hmac_key, iv) := get_key_iv kdf keyB salt workload
    let ciphertext := (AES.new aes_key).encrypt_cbc ptB iv
    let tag := hmacF hmac_key (salt ++ ciphertext)
    if tag.length = 32 then .ok (tag ++ salt ++ ciphertext)
    else .error .ContractViolation

/-- `decrypt(key, ciphertext, workload)`: validate, the two structural length
asserts (`ContractViolation`), coerce the key, split the blob into tag, salt
and ciphertext, re-derive the keys, compare tags (`IntegrityFailure` on
mismatch, the `compare_digest` assert) and finally CBC-decrypt and unpad. -/
def decrypt (kdf : Kdf) (hmacF : HmacF) (key : Inp) (blob : Bytes)
    (workload : Nat) : Except Err Bytes :=
  match validate_decryption_inputs key blob with
  | some e => .error e
  | none =>
    if blob.length % 16 ≠ 0 then .error .ContractViolation
    else if blob.length < 32 then .error .ContractViolation
    else
      let keyB := key.toBytes
      let tag := blob.take 32
      let rest := blob.drop 32
      let salt := rest.take 16
      let ciphertext := rest.drop 16
      let (aes_key, hmac_key, iv) := get_key_iv kdf keyB salt workload
      let expected := hmacF hmac_key (salt ++ ciphertext)
      if tag = expected then
        match (AES.new aes_key).decrypt_cbc ciphertext iv with
        | some pt => .ok pt
        | none => .error .PaddingError
      else .error .IntegrityFailure

/-- Well-formedness of a word: all four bytes below 256 (automatic for Python
byte strings). -/
def WFw (w : Word) : Prop := w.a < 256 ∧ w.b < 256 ∧ w.c < 256 ∧ w.d < 256

/-- Well-formedness of a state or round-key matrix. -/
def WFm (m : Mat) : Prop := WFw m.w0 ∧ WFw m.w1 ∧ WFw m.w2 ∧ WFw m.w3

/-- One full encryption round of `encrypt_block` (SubBytes, ShiftRows,
MixColumns, AddRoundKey). -/
def encRound (s m : Mat) : Mat :=
  add_round_key (mix_columns (shift_rows (sub_bytes s))) m

/-- One full decryption round of `decrypt_block` (AddRoundKey, InvMixColumns,
InvShiftRows, InvSubBytes). -/
def decRound (m s : Mat) : Mat :=
  inv_sub_bytes (inv_shift_rows (inv_mix_columns (add_round_key s m)))

/-! ### Known-answer test vectors (FIPS-197, Appendix C) -/

/-- The FIPS-197 Appendix C key `000102...0f`. -/
def fipsKey128 : Bytes :=
  [0x00, 0x01, 0x02, 0x03, 0x04, 0x05, 0x06, 0x07,
   0x08, 0x09, 0x0a, 0x0b, 0x0c, 0x0d, 0x0e, 0x0f]

/-- The FIPS-197 Appendix C key `000102...17`. -/
def fipsKey192 : Bytes := fipsKey128 ++ [0x10, 0x11, 0x12, 0x13, 0x14, 0x15, 0x16, 0x17]

/-- The FIPS-197 Appendix C key `000102...1f`. -/
def fipsKey256 : Bytes := fipsKey192 ++ [0x18, 0x19, 0x1a, 0x1b, 0x1c, 0x1d, 0x1e, 0x1f]

/-- The FIPS-197 Appendix C plaintext block `00112233445566778899aabbccddeeff`. -/
def fipsPlain : Bytes :=
  [0x00, 0x11, 0x22, 0x33, 0x44, 0x55, 0x66, 0x77,
   0x88, 0x99, 0xaa, 0xbb, 0xcc, 0xdd, 0xee, 0xff]

/-- FIPS-197 Appendix C.1 ciphertext (AES-128). -/
def fipsCipher128 : Bytes :=
  [0x69, 0xc4, 0xe0, 0xd8, 0x6a, 0x7b, 0x04, 0x30,
   0xd8, 0xcd, 0xb7, 0x80, 0x70, 0xb4, 0xc5, 0x5a]

/-- FIPS-197 Appendix C.2 ciphertext (AES-192). -/
def fipsCipher192 : Bytes :=
  [0xdd, 0xa9, 0x7c, 0xa4, 0x86, 0x4c, 0xdf, 0xe0,
   0x6e, 0xaf, 0x70, 0xa0, 0xec, 0x0d, 0x71, 0x91]

/-- FIPS-197 Appendix C.3 ciphertext (AES-256). -/
def fipsCipher256 : Bytes :=
  [0x8e, 0xa2, 0xb7, 0xca, 0x51, 0x67, 0x45, 0xbf,
   0xea, 0xfc, 0x49, 0x90, 0x4b, 0x49, 0x60, 0x89]

/-- A concrete stand-in for PBKDF2 used by the closed witnesses: 48 bytes of
value 7 regardless of inputs. -/
def kdfConst : Kdf := fun _ _ _ => List.replicate 48 7

/-- A concrete stand-in for HMAC-SHA256 used by the closed witnesses: 32 bytes
of value 9. -/
def hmacConst : HmacF := fun _ _ => List.replicate 32 9

/-- The concrete scenario key `b"0123456789abcdef"` of the spec. -/
def keyScenario : Bytes :=
  [48, 49, 50, 51, 52, 53, 54, 55, 56, 57, 97, 98, 99, 100, 101, 102]

/-- The concrete scenario plaintext `b"hello world"` of the spec. -/
def helloWorld : Bytes := [104, 101, 108, 108, 111, 32, 119, 111, 114, 108, 100]

/-- A fixed 16-byte salt standing in for one draw of `os.urandom(16)`. -/
def saltConst : Bytes := List.replicate 16 0

/-! ### XOR algebra -/

theorem xor_left_comm (a b c : Nat) : a ^^^ (b ^^^ c) = b ^^^ (a ^^^ c) := by
  rw [← Nat.xor_assoc, Nat.xor_comm a b, Nat.xor_assoc]

theorem xor_swap (a b c d : Nat) : (a ^^^ b) ^^^ (c ^^^ d) = (a ^^^ c) ^^^ (b ^^^ d) := by
  simp [Nat.xor_assoc, xor_left_comm]

theorem xor_lt_256 {x y : Nat} (hx : x < 256) (hy : y < 256) : x ^^^ y < 256 := by
  have e : (256 : Nat) = 2 ^ 8 := by norm_num
  rw [e] at hx hy ⊢
  exact Nat.xor_lt_two_pow hx hy

theorem xor_shuffle8 (a1 b1 a2 b2 a3 b3 a4 b4 : Nat) :
    (a1 ^^^ b1) ^^^ (a2 ^^^ b2) ^^^ (a3 ^^^ b3) ^^^ (a4 ^^^ b4) =
      (a1 ^^^ a2 ^^^ a3 ^^^ a4) ^^^ (b1 ^^^ b2 ^^^ b3 ^^^ b4) := by
  simp [Nat.xor_assoc, Nat.xor_comm, xor_left_comm]

theorem shiftLeft_one_xor (x y : Nat) : (x ^^^ y) <<< 1 = (x <<< 1) ^^^ (y <<< 1) := by
  apply Nat.eq_of_testBit_eq
  intro i
  simp [Nat.testBit_shiftLeft, Nat.testBit_xor, Bool.and_xor_distrib_left]

theorem and_mask_xor (x y m : Nat) : (x ^^^ y) &&& m = (x &&& m) ^^^ (y &&& m) := by
  apply Nat.eq_of_testBit_eq
  intro i
  simp [Nat.testBit_and, Nat.testBit_xor, Bool.and_xor_distrib_right]

/-! ### Linearity and range of the GF(2^8) primitives -/

theorem xtime_xor (x y : Nat) : xtime (x ^^^ y) = xtime x ^^^ xtime y := by
  unfold xtime
  have hb : (if (x ^^^ y).testBit 7 then 0x1b else 0) =
      (if x.testBit 7 then 0x1b else 0) ^^^ (if y.testBit 7 then 0x1b else 0) := by
    rw [Nat.testBit_xor]
    cases x.testBit 7 <;> cases y.testBit 7 <;> simp
  rw [hb, shiftLeft_one_xor, xor_swap, and_mask_xor]

theorem xtime_lt (x : Nat) : xtime x < 256 := by
  have h : xtime x ≤ 0xff := Nat.and_le_right
  omega

theorem gmulAux_xor (fuel : Nat) :
    ∀ a x y, gmulAux fuel a (x ^^^ y) = gmulAux fuel a x ^^^ gmulAux fuel a y := by
  induction fuel with
  | zero => intro a x y; simp [gmulAux]
  | succ fuel ih =>
    intro a x y
    by_cases h : a = 0
    · simp [gmulAux, h]
    · simp only [gmulAux, if_neg h]
      rw [xtime_xor, ih, xor_swap]
      by_cases h2 : a % 2 = 1 <;> simp [h2]

theorem gmulAux_lt (fuel : Nat) : ∀ a x, x < 256 → gmulAux fuel a x < 256 := by
  induction fuel with
  | zero => intro a x _; simp [gmulAux]
  | succ fuel ih =>
    intro a x hx
    by_cases h : a = 0
    · simp [gmulAux, h]
    · simp only [gmulAux, if_neg h]
      refine xor_lt_256 ?_ (ih (a / 2) (xtime x) (xtime_lt x))
      by_cases h2 : a % 2 = 1 <;> simp [h2, hx]

theorem gmul_xor (a x y : Nat) : gmul a (x ^^^ y) = gmul a x ^^^ gmul a y :=
  gmulAux_xor 8 a x y

theorem gmul_lt (a : Nat) {x : Nat} (hx : x < 256) : gmul a x < 256 :=
  gmulAux_lt 8 a x hx

/-! ### Substitution-table facts -/

theorem sbox_inv_sbox : ∀ b, b < 256 → sboxAt inv_s_box (sboxAt s_box b) = b := by decide

theorem sbox_lt_of_lt : ∀ b, b < 256 → sboxAt s_box b < 256 := by decide

theorem sboxAt_s_box_lt (b : Nat) : sboxAt s_box b < 256 := by
  by_cases h : b < 256
  · exact sbox_lt_of_lt b h
  · unfold sboxAt
    rw [List.getD_eq_default]
    · norm_num
    · have : s_box.length = 256 := by decide
      omega

theorem r_con_getD_lt (i : Nat) : r_con.getD i 0 < 256 := by
  by_cases h : i < 16
  · revert i
    decide
  · rw [List.getD_eq_default]
    · norm_num
    · have : r_con.length = 16 := by decide
      omega

/-! ### Word-level and matrix-level inverses -/

theorem wxor_wf {u v : Word} (hu : WFw u) (hv : WFw v) : WFw (wxor u v) :=
  ⟨xor_lt_256 hu.1 hv.1, xor_lt_256 hu.2.1 hv.2.1,
   xor_lt_256 hu.2.2.1 hv.2.2.1, xor_lt_256 hu.2.2.2 hv.2.2.2⟩

theorem wxor_cancel (u k : Word) : wxor (wxor u k) k = u := by
  cases u; cases k
  simp [wxor, Nat.xor_assoc]

theorem add_round_key_cancel (s k : Mat) : add_round_key (add_round_key s k) k = s := by
  cases s; cases k
  simp [add_round_key, wxor_cancel]

theorem add_round_key_wf {s k : Mat} (hs : WFm s) (hk : WFm k) : WFm (add_round_key s k) :=
  ⟨wxor_wf hs.1 hk.1, wxor_wf hs.2.1 hk.2.1, wxor_wf hs.2.2.1 hk.2.2.1,
   wxor_wf hs.2.2.2 hk.2.2.2⟩

theorem subWordT_s_box_wf (w : Word) : WFw (subWordT s_box w) :=
  ⟨sboxAt_s_box_lt _, sboxAt_s_box_lt _, sboxAt_s_box_lt _, sboxAt_s_box_lt _⟩

theorem sub_bytes_wf (m : Mat) : WFm (sub_bytes m) :=
  ⟨subWordT_s_box_wf _, subWordT_s_box_wf _, subWordT_s_box_wf _, subWordT_s_box_wf _⟩

theorem inv_sub_sub_word {w : Word} (hw : WFw w) :
    subWordT inv_s_box (subWordT s_box w) = w := by
  obtain ⟨a, b, c, d⟩ := w
  obtain ⟨ha, hb, hc, hd⟩ := hw
  simp only [subWordT]
  rw [sbox_inv_sbox a ha, sbox_inv_sbox b hb, sbox_inv_sbox c hc, sbox_inv_sbox d hd]

theorem inv_sub_sub {m : Mat} (hm : WFm m) : inv_sub_bytes (sub_bytes m) = m := by
  obtain ⟨w0, w1, w2, w3⟩ := m
  obtain ⟨h0, h1, h2, h3⟩ := hm
  simp only [sub_bytes, inv_sub_bytes]
  rw [inv_sub_sub_word h0, inv_sub_sub_word h1, inv_sub_sub_word h2, inv_sub_sub_word h3]

theorem inv_shift_shift (m : Mat) : inv_shift_rows (shift_rows m) = m := rfl

theorem shift_rows_wf {m : Mat} (hm : WFm m) : WFm (shift_rows m) := by
  obtain ⟨⟨_, _, _, _⟩, ⟨_, _, _, _⟩, ⟨_, _, _, _⟩, ⟨_, _, _, _⟩⟩ := m
  obtain ⟨⟨_, _, _, _⟩, ⟨_, _, _, _⟩, ⟨_, _, _, _⟩, ⟨_, _, _, _⟩⟩ := hm
  exact ⟨⟨by assumption, by assumption, by assumption, by assumption⟩,
    ⟨by assumption, by assumption, by assumption, by assumption⟩,
    ⟨by assumption, by assumption, by assumption, by assumption⟩,
    ⟨by assumption, by assumption, by assumption, by assumption⟩⟩

theorem m4_xor (c0 c1 c2 c3 : Nat) (u v : Word) :
    m4 c0 c1 c2 c3 (wxor u v) = m4 c0 c1 c2 c3 u ^^^ m4 c0 c1 c2 c3 v := by
  simp only [m4, wxor, gmul_xor]
  exact xor_shuffle8 _ _ _ _ _ _ _ _

theorem m4_lt (c0 c1 c2 c3 : Nat) {w : Word} (hw : WFw w) : m4 c0 c1 c2 c3 w < 256 :=
  xor_lt_256 (xor_lt_256 (xor_lt_256 (gmul_lt c0 hw.1) (gmul_lt c1 hw.2.1))
    (gmul_lt c2 hw.2.2.1)) (gmul_lt c3 hw.2.2.2)

theorem mixW_xor (u v : Word) : mixW (wxor u v) = wxor (mixW u) (mixW v) := by
  simp only [mixW, m4_xor]
  rfl

theorem invMixW_xor (u v : Word) : invMixW (wxor u v) = wxor (invMixW u) (invMixW v) := by
  simp only [invMixW, m4_xor]
  rfl

theorem mixW_wf {w : Word} (hw : WFw w) : WFw (mixW w) :=
  ⟨m4_lt _ _ _ _ hw, m4_lt _ _ _ _ hw, m4_lt _ _ _ _ hw, m4_lt _ _ _ _ hw⟩

theorem mix_basis_a : ∀ x, x < 256 → invMixW (mixW ⟨x, 0, 0, 0⟩) = ⟨x, 0, 0, 0⟩ := by decide

theorem mix_basis_b : ∀ x, x < 256 → invMixW (mixW ⟨0, x, 0, 0⟩) = ⟨0, x, 0, 0⟩ := by decide

theorem mix_basis_c : ∀ x, x < 256 → invMixW (mixW ⟨0, 0, x, 0⟩) = ⟨0, 0, x, 0⟩ := by decide

theorem mix_basis_d : ∀ x, x < 256 → invMixW (mixW ⟨0, 0, 0, x⟩) = ⟨0, 0, 0, x⟩ := by decide

theorem invMixW_mixW {w : Word} (hw : WFw w) : invMixW (mixW w) = w := by
  obtain ⟨a, b, c, d⟩ := w
  obtain ⟨ha, hb, hc, hd⟩ := hw
  have hsplit : (⟨a, b, c, d⟩ : Word) =
      wxor ⟨a, 0, 0, 0⟩ (wxor ⟨0, b, 0, 0⟩ (wxor ⟨0, 0, c, 0⟩ ⟨0, 0, 0, d⟩)) := by
    simp [wxor]
  rw [hsplit, mixW_xor, mixW_xor, mixW_xor, invMixW_xor, invMixW_xor, invMixW_xor,
    mix_basis_a a ha, mix_basis_b b hb, mix_basis_c c hc, mix_basis_d d hd]

theorem inv_mix_mix {m : Mat} (hm : WFm m) : inv_mix_columns (mix_columns m) = m := by
  obtain ⟨w0, w1, w2, w3⟩ := m
  obtain ⟨h0, h1, h2, h3⟩ := hm
  simp only [mix_columns, inv_mix_columns]
  rw [invMixW_mixW h0, invMixW_mixW h1, invMixW_mixW h2, invMixW_mixW h3]

theorem mix_columns_wf {m : Mat} (hm : WFm m) : WFm (mix_columns m) :=
  ⟨mixW_wf hm.1, mixW_wf hm.2.1, mixW_wf hm.2.2.1, mixW_wf hm.2.2.2⟩

/-! ### Default-element well-formedness and lookup bounds -/

theorem zeroW_wf : WFw zeroW := by simp [WFw, zeroW]

theorem zeroM_wf : WFm zeroM := ⟨zeroW_wf, zeroW_wf, zeroW_wf, zeroW_wf⟩

theorem bytes_getD_lt {bs : Bytes} (h : ∀ x ∈ bs, x < 256) (i : Nat) : bs.getD i 0 < 256 := by
  by_cases hi : i < bs.length
  · rw [List.getD_eq_getElem bs 0 hi]
    exact h _ (List.getElem_mem hi)
  · rw [List.getD_eq_default bs 0 (by omega)]
    norm_num

theorem words_getD_wf {l : List Word} (h : ∀ w ∈ l, WFw w) (i : Nat) :
    WFw (l.getD i zeroW) := by
  by_cases hi : i < l.length
  · rw [List.getD_eq_getElem l zeroW hi]
    exact h _ (List.getElem_mem hi)
  · rw [List.getD_eq_default l zeroW (by omega)]
    exact zeroW_wf

theorem mats_getD_wf {l : List Mat} (h : ∀ m ∈ l, WFm m) (i : Nat) :
    WFm (l.getD i zeroM) := by
  by_cases hi : i < l.length
  · rw [List.getD_eq_getElem l zeroM hi]
    exact h _ (List.getElem_mem hi)
  · rw [List.getD_eq_default l zeroM (by omega)]
    exact zeroM_wf

theorem headD_wf {l : List Word} (h : ∀ w ∈ l, WFw w) : WFw (l.headD zeroW) := by
  cases l with
  | nil => exact zeroW_wf
  | cons w t => exact h w (List.mem_cons_self w t)

theorem bytes2matrix_wf {bs : Bytes} (h : ∀ x ∈ bs, x < 256) : WFm (bytes2matrix bs) :=
  ⟨⟨bytes_getD_lt h 0, bytes_getD_lt h 1, bytes_getD_lt h 2, bytes_getD_lt h 3⟩,
   ⟨bytes_getD_lt h 4, bytes_getD_lt h 5, bytes_getD_lt h 6, bytes_getD_lt h 7⟩,
   ⟨bytes_getD_lt h 8, bytes_getD_lt h 9, bytes_getD_lt h 10, bytes_getD_lt h 11⟩,
   ⟨bytes_getD_lt h 12, bytes_getD_lt h 13, bytes_getD_lt h 14, bytes_getD_lt h 15⟩⟩

theorem bytes2matrix_matrix2bytes (m : Mat) : bytes2matrix (matrix2bytes m) = m := rfl

theorem matrix2bytes_wf {m : Mat} (h : WFm m) : ∀ x ∈ matrix2bytes m, x < 256 := by
  obtain ⟨⟨_, _, _, _⟩, ⟨_, _, _, _⟩, ⟨_, _, _, _⟩, ⟨_, _, _, _⟩⟩ := m
  obtain ⟨⟨_, _, _, _⟩, ⟨_, _, _, _⟩, ⟨_, _, _, _⟩, ⟨_, _, _, _⟩⟩ := h
  intro x hx
  simp only [matrix2bytes, List.mem_cons, List.not_mem_nil, or_false] at hx
  rcases hx with h | h | h | h | h | h | h | h | h | h | h | h | h | h | h | h <;>
    subst h <;> assumption

theorem matrix2bytes_bytes2matrix {bs : Bytes} (h : bs.length = 16) :
    matrix2bytes (bytes2matrix bs) = bs := by
  match bs, h with
  | [_, _, _, _, _, _, _, _, _, _, _, _, _, _, _, _], _ => rfl

theorem matrix2bytes_length (m : Mat) : (matrix2bytes m).length = 16 := rfl

/-! ### The round structure of the block cipher -/

theorem encRound_wf (s : Mat) {m : Mat} (hm : WFm m) : WFm (encRound s m) :=
  add_round_key_wf (mix_columns_wf (shift_rows_wf (sub_bytes_wf s))) hm

theorem decRound_encRound {s m : Mat} (hs : WFm s) (hm : WFm m) :
    decRound m (encRound s m) = s := by
  unfold decRound encRound
  rw [add_round_key_cancel, inv_mix_mix (shift_rows_wf (sub_bytes_wf s)),
    inv_shift_shift, inv_sub_sub hs]

theorem foldl_encRound_wf :
    ∀ (ms : List Mat) (s : Mat), WFm s → (∀ m ∈ ms, WFm m) →
      WFm (ms.foldl encRound s) := by
  intro ms
  induction ms with
  | nil => intro s hs _; exact hs
  | cons m ms ih =>
    intro s hs hms
    exact ih _ (encRound_wf s (hms m (List.mem_cons_self m ms)))
      (fun x hx => hms x (List.mem_cons_of_mem m hx))

theorem foldr_decRound_foldl_encRound :
    ∀ (ms : List Mat) (s : Mat), WFm s → (∀ m ∈ ms, WFm m) →
      ms.foldr decRound (ms.foldl encRound s) = s := by
  intro ms
  induction ms with
  | nil => intro s _ _; rfl
  | cons m ms ih =>
    intro s hs hms
    have hm : WFm m := hms m (List.mem_cons_self m ms)
    have hms' : ∀ x ∈ ms, WFm x := fun x hx => hms x (List.mem_cons_of_mem m hx)
    calc (m :: ms).foldr decRound ((m :: ms).foldl encRound s)
        = decRound m (ms.foldr decRound (ms.foldl encRound (encRound s m))) := rfl
      _ = decRound m (encRound s m) := by rw [ih _ (encRound_wf s hm) hms']
      _ = s := decRound_encRound hs hm

theorem foldl_range'_getD (f : Mat → Mat → Mat) :
    ∀ (k j : Nat) (l : List Mat) (s : Mat), j + k ≤ l.length →
      (List.range' j k).foldl (fun s i => f s (l.getD i zeroM)) s =
        ((l.drop j).take k).foldl f s := by
  intro k
  induction k with
  | zero => intro j l s _; simp
  | succ k ih =>
    intro j l s h
    have hj : j < l.length := by omega
    rw [List.range'_succ j k 1, List.drop_eq_getElem_cons hj, List.take_succ_cons,
      List.foldl_cons, List.foldl_cons, List.getD_eq_getElem l zeroM hj]
    exact ih (j + 1) l (f s l[j]) (by omega)

theorem foldr_range'_getD (f : Mat → Mat → Mat) :
    ∀ (k j : Nat) (l : List Mat) (s : Mat), j + k ≤ l.length →
      (List.range' j k).foldr (fun i s => f s (l.getD i zeroM)) s =
        ((l.drop j).take k).foldr (fun m s => f s m) s := by
  intro k
  induction k with
  | zero => intro j l s _; simp
  | succ k ih =>
    intro j l s h
    have hj : j < l.length := by omega
    rw [List.range'_succ j k 1, List.drop_eq_getElem_cons hj, List.take_succ_cons,
      List.foldr_cons, List.foldr_cons, List.getD_eq_getElem l zeroM hj,
      ih (j + 1) l s (by omega)]

/-- `foldl_range'_getD` specialised to the encryption-round body as it
appears literally in `encrypt_block`. -/
theorem foldl_range'_enc (k j : Nat) (l : List Mat) (s : Mat) (h : j + k ≤ l.length) :
    (List.range' j k).foldl
      (fun s i => add_round_key (mix_columns (shift_rows (sub_bytes s))) (l.getD i zeroM))
      s =
      ((l.drop j).take k).foldl encRound s :=
  foldl_range'_getD encRound k j l s h

/-- `foldr_range'_getD` specialised to the decryption-round body as it
appears literally in `decrypt_block` (a left fold over the reversed range). -/
theorem foldl_reverse_range'_dec (k j : Nat) (l : List Mat) (s : Mat)
    (h : j + k ≤ l.length) :
    ((List.range' j k).reverse).foldl
      (fun s i => inv_sub_bytes (inv_shift_rows (inv_mix_columns
        (add_round_key s (l.getD i zeroM)))))
      s =
      ((l.drop j).take k).foldr decRound s := by
  rw [List.foldl_reverse]
  exact foldr_range'_getD
    (fun s m => inv_sub_bytes (inv_shift_rows (inv_mix_columns (add_round_key s m))))
    k j l s h

/-- The full block round trip at the level of an arbitrary well-formed
`AES` instance. -/
theorem decrypt_encrypt_block (aes : AES)
    (hlen : aes.key_matrices.length = aes.n_rounds + 1) (hn : 1 ≤ aes.n_rounds)
    (hWF : ∀ m ∈ aes.key_matrices, WFm m) (b : Bytes) (hb : b.length = 16)
    (hblt : ∀ x ∈ b, x < 256) :
    aes.decrypt_block (aes.encrypt_block b) = b := by
  have hmid : 1 + (aes.n_rounds - 1) ≤ aes.key_matrices.length := by omega
  have hmidwf : ∀ m ∈ (aes.key_matrices.drop 1).take (aes.n_rounds - 1), WFm m := by
    intro m hm
    exact hWF m (List.mem_of_mem_drop (List.mem_of_mem_take hm))
  have hs0 : WFm (add_round_key (bytes2matrix b) (aes.key_matrices.getD 0 zeroM)) :=
    add_round_key_wf (bytes2matrix_wf hblt) (mats_getD_wf hWF 0)
  simp only [AES.encrypt_block, AES.decrypt_block, bytes2matrix_matrix2bytes]
  rw [foldl_range'_enc (aes.n_rounds - 1) 1 aes.key_matrices _ hmid,
    add_round_key_cancel, inv_shift_shift,
    inv_sub_sub (foldl_encRound_wf _ _ hs0 hmidwf),
    foldl_reverse_range'_dec (aes.n_rounds - 1) 1 aes.key_matrices _ hmid,
    foldr_decRound_foldl_encRound _ _ hs0 hmidwf,
    add_round_key_cancel, matrix2bytes_bytes2matrix hb]

/-! ### Key-expansion facts -/

theorem expandLoop_length (kl : Nat) :
    ∀ fuel i rev, (expandLoop kl fuel i rev).length = fuel + rev.length := by
  intro fuel
  induction fuel with
  | zero => intro i rev; simp [expandLoop]
  | succ fuel ih =>
    intro i rev
    simp only [expandLoop]
    rw [ih]
    simp only [List.length_cons]
    omega

theorem expandLoop_wf (kl : Nat) :
    ∀ fuel i rev, (∀ w ∈ rev, WFw w) → ∀ w ∈ expandLoop kl fuel i rev, WFw w := by
  intro fuel
  induction fuel with
  | zero => intro i rev h; exact h
  | succ fuel ih =>
    intro i rev hrev
    simp only [expandLoop]
    refine ih _ _ ?_
    intro w hw
    rcases List.mem_cons.mp hw with h | h
    · subst h
      refine wxor_wf ?_ (words_getD_wf hrev _)
      split_ifs with h1 h2
      · exact ⟨xor_lt_256 (sboxAt_s_box_lt _) (r_con_getD_lt _),
          sboxAt_s_box_lt _, sboxAt_s_box_lt _, sboxAt_s_box_lt _⟩
      · exact subWordT_s_box_wf _
      · exact headD_wf hrev
    · exact hrev w h

theorem bytesToWords_wf :
    ∀ bs : Bytes, (∀ x ∈ bs, x < 256) → ∀ w ∈ bytesToWords bs, WFw w
  | a :: b :: c :: d :: rest, h, w, hw => by
    simp only [bytesToWords, List.mem_cons] at hw
    rcases hw with hw | hw
    · subst hw
      exact ⟨h a (by simp), h b (by simp), h c (by simp), h d (by simp)⟩
    · exact bytesToWords_wf rest (fun x hx => h x (by simp [hx])) w hw
  | [], _, w, hw => by simp [bytesToWords] at hw
  | [a], _, w, hw => by simp [bytesToWords] at hw
  | [a, b], _, w, hw => by simp [bytesToWords] at hw
  | [a, b, c], _, w, hw => by simp [bytesToWords] at hw

theorem bytesToWords_length :
    ∀ bs : Bytes, (bytesToWords bs).length = bs.length / 4
  | a :: b :: c :: d :: rest => by
    simp only [bytesToWords, List.length_cons, bytesToWords_length rest]
    omega
  | [] => by simp [bytesToWords]
  | [a] => by simp [bytesToWords]
  | [a, b] => by simp [bytesToWords]
  | [a, b, c] => by simp [bytesToWords]

theorem groupMats_wf :
    ∀ l : List Word, (∀ w ∈ l, WFw w) → ∀ m ∈ groupMats l, WFm m
  | a :: b :: c :: d :: rest, h, m, hm => by
    simp only [groupMats, List.mem_cons] at hm
    rcases hm with hm | hm
    · subst hm
      exact ⟨h a (by simp), h b (by simp), h c (by simp), h d (by simp)⟩
    · exact groupMats_wf rest (fun x hx => h x (by simp [hx])) m hm
  | [], _, m, hm => by simp [groupMats] at hm
  | [a], _, m, hm => by simp [groupMats] at hm
  | [a, b], _, m, hm => by simp [groupMats] at hm
  | [a, b, c], _, m, hm => by simp [groupMats] at hm

theorem groupMats_length :
    ∀ l : List Word, (groupMats l).length = l.length / 4
  | a :: b :: c :: d :: rest => by
    simp only [groupMats, List.length_cons, groupMats_length rest]
    omega
  | [] => by simp [groupMats]
  | [a] => by simp [groupMats]
  | [a, b] => by simp [groupMats]
  | [a, b, c] => by simp [groupMats]

theorem expand_key_length (mk : Bytes) (n : Nat) (h : mk.length / 4 ≤ (n + 1) * 4) :
    (expand_key mk n).length = n + 1 := by
  unfold expand_key
  rw [groupMats_length, List.length_reverse, expandLoop_length, List.length_reverse,
    bytesToWords_length]
  omega

theorem expand_key_wf (mk : Bytes) (n : Nat) (hmk : ∀ x ∈ mk, x < 256) :
    ∀ m ∈ expand_key mk n, WFm m := by
  unfold expand_key
  intro m hm
  refine groupMats_wf _ ?_ m hm
  intro w hw
  rw [List.mem_reverse] at hw
  refine expandLoop_wf _ _ _ _ ?_ w hw
  intro w hw
  rw [List.mem_reverse] at hw
  exact bytesToWords_wf mk hmk w hw

/-- C3 with `AES.new`: the structural facts about the fresh instance. -/
theorem AES_new_n_rounds (mk : Bytes)
    (hk : mk.length = 16 ∨ mk.length = 24 ∨ mk.length = 32) :
    (AES.new mk).n_rounds = if mk.length = 16 then 10 else if mk.length = 24 then 12 else 14 := by
  rcases hk with h | h | h <;> simp [AES.new, rounds_by_key_size, h]

theorem AES_new_key_matrices_length (mk : Bytes)
    (hk : mk.length = 16 ∨ mk.length = 24 ∨ mk.length = 32) :
    (AES.new mk).key_matrices.length = (AES.new mk).n_rounds + 1 := by
  have hn : (AES.new mk).n_rounds = (rounds_by_key_size mk.length).getD 0 := rfl
  have hm : (AES.new mk).key_matrices =
      expand_key mk ((rounds_by_key_size mk.length).getD 0) := rfl
  rcases hk with h | h | h <;>
    · rw [hn, hm, h]
      norm_num [rounds_by_key_size]
      rw [expand_key_length mk _ (by rw [h]; norm_num)]

theorem AES_new_wf (mk : Bytes) (hmk : ∀ x ∈ mk, x < 256) :
    ∀ m ∈ (AES.new mk).key_matrices, WFm m := by
  simp only [AES.new]
  exact expand_key_wf mk _ hmk

/-- C3: for every master key of length 16, 24, or 32 bytes (with byte values
below 256) and every 16-byte block `b`, `decrypt_block (encrypt_block b)`
under the same key schedule returns `b`; `decrypt_block` applies the inverse
primitive operations in reverse round-key order relative to `encrypt_block`. -/
theorem decrypt_block_inverts_encrypt_block (master_key : Bytes)
    (hk : master_key.length = 16 ∨ master_key.length = 24 ∨ master_key.length = 32)
    (hkb : ∀ x ∈ master_key, x < 256) (b : Bytes) (hb : b.length = 16)
    (hbb : ∀ x ∈ b, x < 256) :
    (AES.new master_key).decrypt_block ((AES.new master_key).encrypt_block b) = b := by
  refine decrypt_encrypt_block _ (AES_new_key_matrices_length _ hk) ?_
    (AES_new_wf _ hkb) b hb hbb
  have hn : (AES.new master_key).n_rounds =
      (rounds_by_key_size master_key.length).getD 0 := rfl
  rcases hk with h | h | h <;> rw [hn, h] <;> norm_num [rounds_by_key_size]

/-- Witness for C3: the round trip evaluated on the FIPS-197 key and block. -/
theorem decrypt_block_inverts_encrypt_block_witness :
    (AES.new fipsKey128).decrypt_block
      ((AES.new fipsKey128).encrypt_block fipsPlain) = fipsPlain :=
  decrypt_block_inverts_encrypt_block fipsKey128 (by decide) (by decide)
    fipsPlain (by decide) (by decide)

/-- C2: for the fixed 128-, 192- and 256-bit keys of the published FIPS-197
Appendix C test vectors, `encrypt_block` maps the standard 16-byte plaintext
block to the standard ciphertext block and `decrypt_block` maps it back
(single block, no chaining). -/
theorem encrypt_block_matches_fips_vectors :
    (AES.new fipsKey128).encrypt_block fipsPlain = fipsCipher128 ∧
    (AES.new fipsKey192).encrypt_block fipsPlain = fipsCipher192 ∧
    (AES.new fipsKey256).encrypt_block fipsPlain = fipsCipher256 ∧
    (AES.new fipsKey128).decrypt_block fipsCipher128 = fipsPlain ∧
    (AES.new fipsKey192).decrypt_block fipsCipher192 = fipsPlain ∧
    (AES.new fipsKey256).decrypt_block fipsCipher256 = fipsPlain := by
  refine ⟨?_, ?_, ?_, ?_, ?_, ?_⟩ <;> decide


/-! ### Padding -/

theorem pad_length (pt : Bytes) : (pad pt).length = pt.length + (16 - pt.length % 16) := by
  simp [pad]

theorem pad_length_eq (pt : Bytes) : (pad pt).length = 16 * (pt.length / 16 + 1) := by
  rw [pad_length]
  omega

theorem pad_dvd (pt : Bytes) : 16 ∣ (pad pt).length := by
  rw [pad_length_eq]
  exact Dvd.intro _ rfl

theorem pad_wf {pt : Bytes} (h : ∀ x ∈ pt, x < 256) : ∀ x ∈ pad pt, x < 256 := by
  intro x hx
  rcases List.mem_append.mp hx with hx | hx
  · exact h x hx
  · have := List.eq_of_mem_replicate hx
    omega

theorem replicate_all_eq (n p : Nat) : (List.replicate n p).all (· == p) = true := by
  simp only [List.all_eq_true]
  intro x hx
  simp [List.eq_of_mem_replicate hx]

theorem unpad_pad (pt : Bytes) : unpad (pad pt) = some pt := by
  have hmod : pt.length % 16 < 16 := Nat.mod_lt _ (by norm_num)
  obtain ⟨m, hm⟩ : ∃ m, 16 - pt.length % 16 = m + 1 := ⟨15 - pt.length % 16, by omega⟩
  have hm16 : m + 1 ≤ 16 := by omega
  have hkey : pad pt = (pt ++ List.replicate m (m + 1)) ++ [m + 1] := by
    simp only [pad]
    rw [hm, List.replicate_succ', ← List.append_assoc]
  have hlen : ((pt ++ List.replicate m (m + 1)) ++ [m + 1]).length = pt.length + (m + 1) := by
    simp
  have hdrop : ((pt ++ List.replicate m (m + 1)) ++ [m + 1]).drop
      (((pt ++ List.replicate m (m + 1)) ++ [m + 1]).length - (m + 1)) =
      List.replicate (m + 1) (m + 1) := by
    rw [hlen, Nat.add_sub_cancel, List.append_assoc, ← List.replicate_succ']
    exact List.drop_left pt _
  rw [hkey]
  simp only [unpad, List.getLast?_concat]
  rw [if_pos ⟨by omega, by omega, by rw [hlen]; omega,
    by rw [hdrop]; exact replicate_all_eq _ _⟩]
  rw [hlen, Nat.add_sub_cancel, List.append_assoc, List.take_left]

/-! ### Block splitting -/

theorem splitAux_nil : ∀ fuel, splitAux fuel [] = [] := by
  intro fuel
  cases fuel <;> simp [splitAux]

theorem splitAux_congr :
    ∀ f1 f2 (l : Bytes), l.length ≤ f1 → l.length ≤ f2 → splitAux f1 l = splitAux f2 l := by
  intro f1
  induction f1 with
  | zero =>
    intro f2 l h1 _
    have : l = [] := List.length_eq_zero.mp (by omega)
    subst this
    rw [splitAux_nil, splitAux_nil]
  | succ f1 ih =>
    intro f2 l h1 h2
    by_cases hl : l = []
    · subst hl
      rw [splitAux_nil, splitAux_nil]
    · have hpos : 0 < l.length := List.length_pos.mpr hl
      cases f2 with
      | zero => omega
      | succ f2 =>
        simp only [splitAux, if_neg hl]
        have hd : (l.drop 16).length ≤ f1 := by simp [List.length_drop]; omega
        have hd2 : (l.drop 16).length ≤ f2 := by simp [List.length_drop]; omega
        rw [ih f2 (l.drop 16) hd hd2]

theorem split_blocks_cons {l : Bytes} (h : l ≠ []) :
    split_blocks l = l.take 16 :: split_blocks (l.drop 16) := by
  have hpos : 0 < l.length := List.length_pos.mpr h
  obtain ⟨k, hk⟩ : ∃ k, l.length = k + 1 := ⟨l.length - 1, by omega⟩
  have h1 : split_blocks l = splitAux (k + 1) l := by rw [split_blocks, hk]
  have h2 : splitAux k (l.drop 16) = split_blocks (l.drop 16) := by
    rw [split_blocks]
    exact splitAux_congr k (l.drop 16).length (l.drop 16)
      (by simp [List.length_drop]; omega) le_rfl
  rw [h1]
  simp only [splitAux, if_neg h]
  rw [h2]

theorem split_blocks_flatten :
    ∀ bs : List Bytes, (∀ b ∈ bs, b.length = 16) → split_blocks bs.flatten = bs := by
  intro bs
  induction bs with
  | nil => intro _; rfl
  | cons b rest ih =>
    intro h
    have hb : b.length = 16 := h b (List.mem_cons_self b rest)
    have hne : (b :: rest).flatten ≠ [] := by
      simp only [List.flatten_cons]
      intro hc
      have := congrArg List.length hc
      simp [hb] at this
    rw [List.flatten_cons] at hne ⊢
    rw [split_blocks_cons hne]
    have htake : (b ++ rest.flatten).take 16 = b := by
      conv_lhs => rw [← hb]
      exact List.take_left b rest.flatten
    have hdrop : (b ++ rest.flatten).drop 16 = rest.flatten := by
      conv_lhs => rw [← hb]
      exact List.drop_left b rest.flatten
    rw [htake, hdrop, ih (fun x hx => h x (List.mem_cons_of_mem b hx))]

theorem split_blocks_spec :
    ∀ (fuel : Nat) (l : Bytes), l.length ≤ fuel → 16 ∣ l.length →
      (split_blocks l).flatten = l ∧ ∀ b ∈ split_blocks l, b.length = 16 := by
  intro fuel
  induction fuel with
  | zero =>
    intro l h1 _
    have : l = [] := List.length_eq_zero.mp (by omega)
    subst this
    exact ⟨rfl, by simp [split_blocks, splitAux]⟩
  | succ fuel ih =>
    intro l h1 hdvd
    by_cases hl : l = []
    · subst hl
      exact ⟨rfl, by simp [split_blocks, splitAux]⟩
    · have hpos : 0 < l.length := List.length_pos.mpr hl
      have h16 : 16 ≤ l.length := by
        rcases hdvd with ⟨c, hc⟩
        rcases Nat.eq_zero_or_pos c with h | h <;> omega
      obtain ⟨hfl, hlen⟩ := ih (l.drop 16)
        (by simp [List.length_drop]; omega)
        (by simp only [List.length_drop]; exact Nat.dvd_sub' hdvd ⟨1, by omega⟩)
      rw [split_blocks_cons hl]
      constructor
      · rw [List.flatten_cons, hfl, List.take_append_drop]
      · intro b hb
        rcases List.mem_cons.mp hb with hb | hb
        · subst hb
          simp [List.length_take]
          omega
        · exact hlen b hb

/-! ### CBC chaining -/

theorem encrypt_block_length (aes : AES) (b : Bytes) : (aes.encrypt_block b).length = 16 :=
  rfl

theorem encrypt_block_wf (aes : AES) (hWF : ∀ m ∈ aes.key_matrices, WFm m) (b : Bytes) :
    ∀ x ∈ aes.encrypt_block b, x < 256 := by
  simp only [AES.encrypt_block]
  exact matrix2bytes_wf
    (add_round_key_wf (shift_rows_wf (sub_bytes_wf _)) (mats_getD_wf hWF _))

theorem xor_bytes_length (u v : Bytes) : (xor_bytes u v).length = min u.length v.length :=
  List.length_zipWith _ u v

theorem xor_bytes_wf :
    ∀ (u v : Bytes), (∀ x ∈ u, x < 256) → (∀ x ∈ v, x < 256) →
      ∀ x ∈ xor_bytes u v, x < 256 := by
  intro u
  induction u with
  | nil => intro v _ _ x hx; simp [xor_bytes] at hx
  | cons a u ih =>
    intro v hu hv x hx
    cases v with
    | nil => simp [xor_bytes] at hx
    | cons b v =>
      simp only [xor_bytes, List.zipWith_cons_cons, List.mem_cons] at hx
      rcases hx with hx | hx
      · subst hx
        exact xor_lt_256 (hu a (by simp)) (hv b (by simp))
      · exact ih v (fun y hy => hu y (by simp [hy])) (fun y hy => hv y (by simp [hy])) x hx

theorem xor_bytes_cancel :
    ∀ (b p : Bytes), b.length = p.length → xor_bytes p (xor_bytes b p) = b := by
  intro b
  induction b with
  | nil =>
    intro p h
    have : p = [] := List.length_eq_zero.mp (by simp at h; omega)
    subst this
    rfl
  | cons x b ih =>
    intro p h
    cases p with
    | nil => simp at h
    | cons y p =>
      simp only [xor_bytes, List.zipWith_cons_cons, List.cons.injEq]
      constructor
      · rw [Nat.xor_comm x y, ← Nat.xor_assoc, Nat.xor_self, Nat.zero_xor]
      · exact ih p (by simpa using h)

theorem cbcEncBlocks_block_length (aes : AES) :
    ∀ (bs : List Bytes) (prev : Bytes), ∀ c ∈ cbcEncBlocks aes bs prev, c.length = 16 := by
  intro bs
  induction bs with
  | nil => intro prev c hc; simp [cbcEncBlocks] at hc
  | cons b bs ih =>
    intro prev c hc
    simp only [cbcEncBlocks, List.mem_cons] at hc
    rcases hc with hc | hc
    · subst hc; exact encrypt_block_length aes _
    · exact ih _ c hc

theorem cbcEncBlocks_length (aes : AES) :
    ∀ (bs : List Bytes) (prev : Bytes), (cbcEncBlocks aes bs prev).length = bs.length := by
  intro bs
  induction bs with
  | nil => intro prev; rfl
  | cons b bs ih => intro prev; simp [cbcEncBlocks, ih]

theorem cbcDec_cbcEnc (aes : AES)
    (hlen : aes.key_matrices.length = aes.n_rounds + 1) (hn : 1 ≤ aes.n_rounds)
    (hWF : ∀ m ∈ aes.key_matrices, WFm m) :
    ∀ (bs : List Bytes) (prev : Bytes),
      (∀ b ∈ bs, b.length = 16 ∧ ∀ x ∈ b, x < 256) →
      prev.length = 16 → (∀ x ∈ prev, x < 256) →
      cbcDecBlocks aes (cbcEncBlocks aes bs prev) prev = bs := by
  intro bs
  induction bs with
  | nil => intro prev _ _ _; rfl
  | cons b bs ih =>
    intro prev hbs hprev hprevwf
    obtain ⟨hb16, hbwf⟩ := hbs b (List.mem_cons_self b bs)
    simp only [cbcEncBlocks, cbcDecBlocks]
    have hxlen : (xor_bytes b prev).length = 16 := by
      rw [xor_bytes_length, hb16, hprev]
      omega
    have hxwf : ∀ x ∈ xor_bytes b prev, x < 256 := xor_bytes_wf b prev hbwf hprevwf
    have hdec : aes.decrypt_block (aes.encrypt_block (xor_bytes b prev)) =
        xor_bytes b prev :=
      decrypt_encrypt_block aes hlen hn hWF _ hxlen hxwf
    rw [hdec, xor_bytes_cancel b prev (by omega)]
    congr 1
    exact ih _ (fun x hx => hbs x (List.mem_cons_of_mem b hx))
      (encrypt_block_length aes _) (encrypt_block_wf aes hWF _)

/-- The chained-mode round trip: `decrypt_cbc (encrypt_cbc pt iv) iv`
recovers `pt` for a well-formed cipher instance. -/
theorem decrypt_cbc_encrypt_cbc (aes : AES)
    (hlen : aes.key_matrices.length = aes.n_rounds + 1) (hn : 1 ≤ aes.n_rounds)
    (hWF : ∀ m ∈ aes.key_matrices, WFm m) (pt iv : Bytes)
    (hpt : ∀ x ∈ pt, x < 256) (hiv : iv.length = 16) (hivwf : ∀ x ∈ iv, x < 256) :
    aes.decrypt_cbc (aes.encrypt_cbc pt iv) iv = some pt := by
  obtain ⟨hfl, hblk⟩ := split_blocks_spec (pad pt).length (pad pt) le_rfl (pad_dvd pt)
  unfold AES.encrypt_cbc AES.decrypt_cbc
  rw [split_blocks_flatten _ (cbcEncBlocks_block_length aes _ _)]
  rw [cbcDec_cbcEnc aes hlen hn hWF _ _ ?blocks hiv hivwf]
  · rw [hfl]
    exact unpad_pad pt
  case blocks =>
    intro b hb
    refine ⟨hblk b hb, ?_⟩
    intro x hx
    have hxmem : x ∈ (split_blocks (pad pt)).flatten := List.mem_flatten.mpr ⟨b, hb, hx⟩
    rw [hfl] at hxmem
    exact pad_wf hpt x hxmem


/-! ### Top-level API helpers -/

theorem utf8DecodeAux_ascii :
    ∀ (fuel : Nat) (l : Bytes), l.length ≤ fuel → (∀ x ∈ l, x < 128) →
      utf8DecodeAux fuel l = some l := by
  intro fuel
  induction fuel with
  | zero =>
    intro l h _
    have : l = [] := List.length_eq_zero.mp (by omega)
    subst this
    rfl
  | succ fuel ih =>
    intro l h hascii
    cases l with
    | nil => rfl
    | cons b rest =>
      have hb : b < 128 := hascii b (List.mem_cons_self b rest)
      have hone : utf8DecodeOne b rest = some (b, rest) := by
        unfold utf8DecodeOne
        rw [if_pos hb]
      rw [utf8DecodeAux, hone]
      change (utf8DecodeAux fuel rest).map (b :: ·) = some (b :: rest)
      rw [ih rest (by simp at h; omega)
        (fun x hx => hascii x (List.mem_cons_of_mem b hx))]
      rfl

theorem utf8Decode_ascii (l : Bytes) (h : ∀ x ∈ l, x < 128) : utf8Decode l = some l :=
  utf8DecodeAux_ascii l.length l le_rfl h

theorem validate_enc_ok {key pt : Bytes}
    (hk : key.length = 16 ∨ key.length = 24 ∨ key.length = 32)
    (hpt : pt ≠ []) (hascii : ∀ x ∈ pt, x < 128) :
    validate_encryption_inputs key pt = none := by
  have h1 : ¬(key.length = 0) := by rcases hk with h | h | h <;> omega
  have h2 : ¬(pt.length = 0) := by simpa [List.length_eq_zero] using hpt
  have h4 : pt.any (fun c => 127 < c) = false := by
    simp only [List.any_eq_false, decide_eq_true_eq]
    intro x hx
    have := hascii x hx
    omega
  unfold validate_encryption_inputs
  rw [if_neg h1, if_neg h2, if_neg (not_not_intro hk), utf8Decode_ascii pt hascii]
  change (if pt.any (fun c => 127 < c) = true then some Err.UnsupportedMessageType
    else none) = none
  rw [h4]
  simp

theorem validate_dec_ok (key : Inp) (blob : Bytes)
    (hk : key.len = 16 ∨ key.len = 24 ∨ key.len = 32) (hb : blob ≠ []) :
    validate_decryption_inputs key blob = none := by
  have h1 : ¬(key.len = 0) := by rcases hk with h | h | h <;> omega
  have h2 : ¬(blob.length = 0) := by simpa [List.length_eq_zero] using hb
  unfold validate_decryption_inputs
  rw [if_neg h1, if_neg h2, if_neg (not_not_intro hk)]

theorem flatten_length_of_16 :
    ∀ bs : List Bytes, (∀ b ∈ bs, b.length = 16) → bs.flatten.length = 16 * bs.length := by
  intro bs
  induction bs with
  | nil => intro _; rfl
  | cons b rest ih =>
    intro h
    simp only [List.flatten_cons, List.length_append, List.length_cons,
      h b (List.mem_cons_self b rest), ih (fun x hx => h x (List.mem_cons_of_mem b hx))]
    ring

theorem encrypt_cbc_length (aes : AES) (pt iv : Bytes) :
    (aes.encrypt_cbc pt iv).length = (pad pt).length := by
  obtain ⟨hfl, hblk⟩ := split_blocks_spec (pad pt).length (pad pt) le_rfl (pad_dvd pt)
  unfold AES.encrypt_cbc
  rw [flatten_length_of_16 _ (cbcEncBlocks_block_length aes _ _), cbcEncBlocks_length]
  have h2 := flatten_length_of_16 _ hblk
  rw [hfl] at h2
  omega

theorem get_key_iv_eq (kdf : Kdf) (pw salt : Bytes) (w : Nat) :
    get_key_iv kdf pw salt w =
      ((kdf pw salt w).take 16, ((kdf pw salt w).drop 16).take 16,
        (((kdf pw salt w).drop 16).drop 16).take 16) := rfl

theorem take16_length {l : Bytes} (h : 16 ≤ l.length) : (l.take 16).length = 16 := by
  rw [List.length_take]
  omega

theorem take_wf {l : Bytes} (h : ∀ x ∈ l, x < 256) (n : Nat) :
    ∀ x ∈ l.take n, x < 256 :=
  fun x hx => h x (List.mem_of_mem_take hx)

theorem drop_wf {l : Bytes} (h : ∀ x ∈ l, x < 256) (n : Nat) :
    ∀ x ∈ l.drop n, x < 256 :=
  fun x hx => h x (List.mem_of_mem_drop hx)


/-- C1: for every key of length 16, 24, or 32 bytes, every non-empty all-ASCII
plaintext, any 16-byte salt drawn by encrypt's random source, and any workload,
decrypting the blob produced by `encrypt` with the same key and workload
returns exactly the plaintext.  The standard-library PBKDF2 and HMAC functions
are quantified over, assuming only their documented output sizes (48 bytes of
key material, 32-byte tags) and that key-material bytes are bytes. -/
theorem decrypt_inverts_encrypt (kdf : Kdf) (hmacF : HmacF)
    (hkdfl : ∀ pw s w, (kdf pw s w).length = 48)
    (hkdfwf : ∀ pw s w, ∀ x ∈ kdf pw s w, x < 256)
    (hm32 : ∀ k m, (hmacF k m).length = 32)
    (key : Bytes) (hk : key.length = 16 ∨ key.length = 24 ∨ key.length = 32)
    (pt : Bytes) (hpt : pt ≠ []) (hascii : ∀ x ∈ pt, x < 128)
    (salt : Bytes) (hsalt : salt.length = 16) (w : Nat) :
    ∃ blob, encrypt kdf hmacF salt (.bytes key) (.bytes pt) w = .ok blob ∧
      decrypt kdf hmacF (.bytes key) blob w = .ok pt := by
  have hptwf : ∀ x ∈ pt, x < 256 := fun x hx => by have := hascii x hx; omega
  have hskl : (kdf key salt w).length = 48 := hkdfl key salt w
  have hckl : ((kdf key salt w).take 16).length = 16 := take16_length (by omega)
  have hck3 : ((kdf key salt w).take 16).length = 16 ∨
      ((kdf key salt w).take 16).length = 24 ∨
      ((kdf key salt w).take 16).length = 32 := Or.inl hckl
  have hckwf : ∀ x ∈ (kdf key salt w).take 16, x < 256 :=
    take_wf (hkdfwf key salt w) 16
  have hivl : ((((kdf key salt w).drop 16).drop 16).take 16).length = 16 := by
    rw [List.length_take, List.length_drop, List.length_drop, hskl]
    omega
  have hivwf : ∀ x ∈ (((kdf key salt w).drop 16).drop 16).take 16, x < 256 :=
    take_wf (drop_wf (drop_wf (hkdfwf key salt w) 16) 16) 16
  have hmats := AES_new_key_matrices_length _ hck3
  have hwfm := AES_new_wf _ hckwf
  have hnr : 1 ≤ (AES.new ((kdf key salt w).take 16)).n_rounds := by
    rw [AES_new_n_rounds _ hck3]
    split_ifs <;> omega
  have hcbc := decrypt_cbc_encrypt_cbc (AES.new ((kdf key salt w).take 16))
    hmats hnr hwfm pt ((((kdf key salt w).drop 16).drop 16).take 16)
    hptwf hivl hivwf
  have hctl : ((AES.new ((kdf key salt w).take 16)).encrypt_cbc pt
      ((((kdf key salt w).drop 16).drop 16).take 16)).length = (pad pt).length :=
    encrypt_cbc_length _ _ _
  have hctdvd : 16 ∣ ((AES.new ((kdf key salt w).take 16)).encrypt_cbc pt
      ((((kdf key salt w).drop 16).drop 16).take 16)).length := by
    rw [hctl]
    exact pad_dvd pt
  have hct1 : 16 ≤ ((AES.new ((kdf key salt w).take 16)).encrypt_cbc pt
      ((((kdf key salt w).drop 16).drop 16).take 16)).length := by
    rw [hctl, pad_length_eq]
    omega
  have htagl : (hmacF (((kdf key salt w).drop 16).take 16)
      (salt ++ (AES.new ((kdf key salt w).take 16)).encrypt_cbc pt
        ((((kdf key salt w).drop 16).drop 16).take 16))).length = 32 := hm32 _ _
  refine ⟨hmacF (((kdf key salt w).drop 16).take 16)
      (salt ++ (AES.new ((kdf key salt w).take 16)).encrypt_cbc pt
        ((((kdf key salt w).drop 16).drop 16).take 16)) ++ salt ++
      (AES.new ((kdf key salt w).take 16)).encrypt_cbc pt
        ((((kdf key salt w).drop 16).drop 16).take 16), ?_, ?_⟩
  · simp only [encrypt, Inp.toBytes, validate_enc_ok hk hpt hascii, get_key_iv_eq]
    simp only [htagl]
    rw [if_true]
  · have hblen : (hmacF (((kdf key salt w).drop 16).take 16)
        (salt ++ (AES.new ((kdf key salt w).take 16)).encrypt_cbc pt
          ((((kdf key salt w).drop 16).drop 16).take 16)) ++ salt ++
        (AES.new ((kdf key salt w).take 16)).encrypt_cbc pt
          ((((kdf key salt w).drop 16).drop 16).take 16)).length =
        32 + (16 + ((AES.new ((kdf key salt w).take 16)).encrypt_cbc pt
          ((((kdf key salt w).drop 16).drop 16).take 16)).length) := by
      rw [List.length_append, List.length_append, htagl, hsalt]
      omega
    have hne : hmacF (((kdf key salt w).drop 16).take 16)
        (salt ++ (AES.new ((kdf key salt w).take 16)).encrypt_cbc pt
          ((((kdf key salt w).drop 16).drop 16).take 16)) ++ salt ++
        (AES.new ((kdf key salt w).take 16)).encrypt_cbc pt
          ((((kdf key salt w).drop 16).drop 16).take 16) ≠ [] := by
      intro hc
      rw [hc] at hblen
      simp only [List.length_nil] at hblen
      omega
    simp only [decrypt, Inp.toBytes, Inp.len,
      validate_dec_ok (Inp.bytes key) _ hk hne, get_key_iv_eq]
    rw [if_neg (by rw [hblen]; omega),
      if_neg (by rw [hblen]; omega)]
    simp only [List.append_assoc]
    rw [List.take_left' htagl, List.drop_left' htagl,
      List.take_left' hsalt, List.drop_left' hsalt,
      if_pos rfl, hcbc]


/-- Witness for C1: the round trip instantiated at a concrete key, plaintext,
salt, workload and external functions. -/
theorem decrypt_inverts_encrypt_witness :
    ∃ blob, encrypt kdfConst hmacConst saltConst (.bytes keyScenario)
        (.bytes helloWorld) 1 = .ok blob ∧
      decrypt kdfConst hmacConst (.bytes keyScenario) blob 1 = .ok helloWorld :=
  decrypt_inverts_encrypt kdfConst hmacConst
    (fun _ _ _ => rfl)
    (fun _ _ _ x hx => by have := List.eq_of_mem_replicate hx; omega)
    (fun _ _ => rfl)
    keyScenario (by decide) helloWorld (by decide) (by decide)
    saltConst (by decide) 1

/-- C4: every blob returned by `encrypt` is the concatenation
AuthTag (32 bytes) ++ Salt (16 bytes) ++ Ciphertext (16*N bytes, N ≥ 1), so the
total length is 48 + 16*N with N = len(plaintext)/16 + 1. -/
theorem encrypt_blob_structure (kdf : Kdf) (hmacF : HmacF)
    (hm32 : ∀ k m, (hmacF k m).length = 32)
    (key : Bytes) (hk : key.length = 16 ∨ key.length = 24 ∨ key.length = 32)
    (pt : Bytes) (hpt : pt ≠ []) (hascii : ∀ x ∈ pt, x < 128)
    (salt : Bytes) (hsalt : salt.length = 16) (w : Nat) :
    ∃ tag s ct, encrypt kdf hmacF salt (.bytes key) (.bytes pt) w = .ok (tag ++ s ++ ct) ∧
      tag.length = 32 ∧ s.length = 16 ∧ ct.length = 16 * (pt.length / 16 + 1) ∧
      1 ≤ pt.length / 16 + 1 ∧
      (tag ++ s ++ ct).length = 48 + 16 * (pt.length / 16 + 1) := by
  have htagl : (hmacF (((kdf key salt w).drop 16).take 16)
      (salt ++ (AES.new ((kdf key salt w).take 16)).encrypt_cbc pt
        ((((kdf key salt w).drop 16).drop 16).take 16))).length = 32 := hm32 _ _
  have hctl : ((AES.new ((kdf key salt w).take 16)).encrypt_cbc pt
      ((((kdf key salt w).drop 16).drop 16).take 16)).length =
      16 * (pt.length / 16 + 1) := by
    rw [encrypt_cbc_length, pad_length_eq]
  refine ⟨hmacF (((kdf key salt w).drop 16).take 16)
      (salt ++ (AES.new ((kdf key salt w).take 16)).encrypt_cbc pt
        ((((kdf key salt w).drop 16).drop 16).take 16)), salt,
      (AES.new ((kdf key salt w).take 16)).encrypt_cbc pt
        ((((kdf key salt w).drop 16).drop 16).take 16),
      ?_, htagl, hsalt, hctl, by omega, ?_⟩
  · simp only [encrypt, Inp.toBytes, validate_enc_ok hk hpt hascii, get_key_iv_eq]
    simp only [htagl]
    rw [if_true]
  · rw [List.length_append, List.length_append, htagl, hsalt, hctl]

/-- Witness for C4: for the 16-byte key `b"0123456789abcdef"` and the 11-byte
plaintext `b"hello world"` the returned blob is exactly 64 bytes. -/
theorem encrypt_blob_structure_witness :
    ∃ tag s ct, encrypt kdfConst hmacConst saltConst (.bytes keyScenario)
        (.bytes helloWorld) 1 = .ok (tag ++ s ++ ct) ∧
      (tag ++ s ++ ct).length = 64 := by
  obtain ⟨tag, s, ct, henc, _, _, _, _, hlen⟩ :=
    encrypt_blob_structure kdfConst hmacConst (fun _ _ => rfl)
      keyScenario (by decide) helloWorld (by decide) (by decide) saltConst (by decide) 1
  exact ⟨tag, s, ct, henc, by rw [hlen]; decide⟩


/-! ### Validation-failure lemmas -/

theorem validate_enc_empty_key (key pt : Bytes) (h0 : key.length = 0) :
    validate_encryption_inputs key pt = some .EmptyKey := by
  unfold validate_encryption_inputs
  rw [if_pos h0]

theorem validate_enc_invalid_key (key pt : Bytes) (h0 : key.length ≠ 0) (hpt : pt ≠ [])
    (hlen : ¬(key.length = 16 ∨ key.length = 24 ∨ key.length = 32)) :
    validate_encryption_inputs key pt = some .InvalidKeyLength := by
  unfold validate_encryption_inputs
  rw [if_neg h0, if_neg (by simpa [List.length_eq_zero] using hpt), if_pos hlen]

theorem validate_dec_empty_key (key : Inp) (blob : Bytes) (h0 : key.len = 0) :
    validate_decryption_inputs key blob = some .EmptyKey := by
  unfold validate_decryption_inputs
  rw [if_pos h0]

theorem validate_dec_invalid_key (key : Inp) (blob : Bytes) (h0 : key.len ≠ 0)
    (hb : blob ≠ []) (hlen : ¬(key.len = 16 ∨ key.len = 24 ∨ key.len = 32)) :
    validate_decryption_inputs key blob = some .InvalidKeyLength := by
  unfold validate_decryption_inputs
  rw [if_neg h0, if_neg (by simpa [List.length_eq_zero] using hb), if_pos hlen]

/-- C5: during `decrypt`, whenever the stored tag differs from the tag
recomputed by `hmacF` over salt ++ ciphertext, the result is
`IntegrityFailure` and no plaintext is produced — for every ciphertext,
key-derivation function and key, so the check precedes any chained-mode
decryption, and tampering and a wrong key yield the same error. -/
theorem decrypt_tag_mismatch (kdf : Kdf) (hmacF : HmacF) (key : Inp) (blob : Bytes)
    (w : Nat) (hk : key.len = 16 ∨ key.len = 24 ∨ key.len = 32) (hne : blob ≠ [])
    (h16 : blob.length % 16 = 0) (h32 : 32 ≤ blob.length)
    (hmis : blob.take 32 ≠
      hmacF (((kdf key.toBytes ((blob.drop 32).take 16) w).drop 16).take 16)
        ((blob.drop 32).take 16 ++ (blob.drop 32).drop 16)) :
    decrypt kdf hmacF key blob w = .error .IntegrityFailure := by
  simp only [decrypt, validate_dec_ok key blob hk hne, get_key_iv_eq]
  rw [if_neg (by omega), if_neg (by omega), if_neg hmis]

/-- Witness for C5: a 64-byte all-zero blob whose stored tag (zeros) differs
from the recomputed constant tag (nines). -/
theorem decrypt_tag_mismatch_witness :
    decrypt kdfConst hmacConst (.bytes keyScenario) (List.replicate 64 0) 1 =
      .error .IntegrityFailure :=
  decrypt_tag_mismatch kdfConst hmacConst (.bytes keyScenario) (List.replicate 64 0) 1
    (by decide) (by decide) (by decide) (by decide) (by decide)

/-- Counterexample for C6: with a valid key, an empty blob raises
`EmptyMessage` (not the structural `ContractViolation`), and with an invalid
key even a 16-byte blob (shorter than 32) raises `InvalidKeyLength`; so the
structural error is not raised "whenever" the length is bad. -/
theorem decrypt_structural_counterexample :
    decrypt kdfConst hmacConst (.bytes keyScenario) [] 1 = .error .EmptyMessage ∧
    decrypt kdfConst hmacConst (.bytes (List.replicate 8 0)) (List.replicate 16 0) 1 =
      .error .InvalidKeyLength ∧
    Err.EmptyMessage ≠ Err.ContractViolation ∧
    Err.InvalidKeyLength ≠ Err.ContractViolation := by
  exact ⟨rfl, rfl, by decide, by decide⟩

/-- C6 (amended): for a key of valid length and a *non-empty* blob, `decrypt`
raises the structural `ContractViolation` whenever the blob length is not a
multiple of 16 or is below 32 bytes — for every key-derivation and HMAC
function, so before any key derivation or cryptographic work. -/
theorem decrypt_structural_check (kdf : Kdf) (hmacF : HmacF) (key : Inp)
    (blob : Bytes) (w : Nat) (hk : key.len = 16 ∨ key.len = 24 ∨ key.len = 32)
    (hne : blob ≠ []) (hbad : blob.length % 16 ≠ 0 ∨ blob.length < 32) :
    decrypt kdf hmacF key blob w = .error .ContractViolation := by
  simp only [decrypt, validate_dec_ok key blob hk hne]
  by_cases h : blob.length % 16 ≠ 0
  · rw [if_pos h]
  · rw [if_neg h, if_pos (by omega)]

/-- Witness for C6 (amended): a valid key with a one-byte blob. -/
theorem decrypt_structural_check_witness :
    decrypt kdfConst hmacConst (.bytes keyScenario) [0] 1 = .error .ContractViolation :=
  decrypt_structural_check kdfConst hmacConst (.bytes keyScenario) [0] 1
    (by decide) (by decide) (by decide)

/-- C7: with any non-empty plaintext/blob, a key of length 8, 15, 17 or 33
makes both `encrypt` and `decrypt` raise `InvalidKeyLength`, and a key of
length 0 makes both raise `EmptyKey`; the external functions are quantified
over, so this happens before any key derivation or cipher operation. -/
theorem key_length_validation (kdf : Kdf) (hmacF : HmacF) (salt : Bytes)
    (key pt blob : Bytes) (hpt : pt ≠ []) (hblob : blob ≠ []) (w : Nat) :
    (key.length = 8 ∨ key.length = 15 ∨ key.length = 17 ∨ key.length = 33 →
      encrypt kdf hmacF salt (.bytes key) (.bytes pt) w = .error .InvalidKeyLength ∧
      decrypt kdf hmacF (.bytes key) blob w = .error .InvalidKeyLength) ∧
    (key.length = 0 →
      encrypt kdf hmacF salt (.bytes key) (.bytes pt) w = .error .EmptyKey ∧
      decrypt kdf hmacF (.bytes key) blob w = .error .EmptyKey) := by
  constructor
  · intro hlen
    constructor
    · simp only [encrypt, Inp.toBytes,
        validate_enc_invalid_key key pt (by omega) hpt (by omega)]
    · simp only [decrypt,
        validate_dec_invalid_key (Inp.bytes key) blob
          (by simp only [Inp.len]; omega) hblob (by simp only [Inp.len]; omega)]
  · intro h0
    constructor
    · simp only [encrypt, Inp.toBytes, validate_enc_empty_key key pt h0]
    · simp only [decrypt,
        validate_dec_empty_key (Inp.bytes key) blob (by simp only [Inp.len]; omega)]

/-- Witness for C7: an 8-byte key and the empty key, with concrete non-empty
plaintext and blob. -/
theorem key_length_validation_witness :
    (encrypt kdfConst hmacConst saltConst (.bytes (List.replicate 8 0)) (.bytes [104]) 1 =
        .error .InvalidKeyLength ∧
      decrypt kdfConst hmacConst (.bytes (List.replicate 8 0)) (List.replicate 16 0) 1 =
        .error .InvalidKeyLength) ∧
    (encrypt kdfConst hmacConst saltConst (.bytes []) (.bytes [104]) 1 =
        .error .EmptyKey ∧
      decrypt kdfConst hmacConst (.bytes []) (List.replicate 16 0) 1 =
        .error .EmptyKey) :=
  ⟨(key_length_validation kdfConst hmacConst saltConst (List.replicate 8 0) [104]
      (List.replicate 16 0) (by decide) (by decide) 1).1 (by decide),
   (key_length_validation kdfConst hmacConst saltConst [] [104]
      (List.replicate 16 0) (by decide) (by decide) 1).2 (by decide)⟩

theorem Inp_toBytes_bytes (b : Bytes) : (Inp.bytes b).toBytes = b := rfl

/-- C8: for every valid key, `encrypt` raises `UnsupportedMessageType`
whenever the plaintext's UTF-8 decoding contains a character above 127. -/
theorem encrypt_rejects_non_ascii (kdf : Kdf) (hmacF : HmacF) (salt : Bytes)
    (key : Bytes) (hk : key.length = 16 ∨ key.length = 24 ∨ key.length = 32)
    (plaintext : Inp) (hpt : plaintext.toBytes ≠ []) (cs : List Nat)
    (hdec : utf8Decode plaintext.toBytes = some cs) (c : Nat) (hc : c ∈ cs)
    (hbig : 127 < c) (w : Nat) :
    encrypt kdf hmacF salt (.bytes key) plaintext w = .error .UnsupportedMessageType := by
  have hany : cs.any (fun c => 127 < c) = true := by
    simp only [List.any_eq_true, decide_eq_true_eq]
    exact ⟨c, hc, hbig⟩
  have hv : validate_encryption_inputs key plaintext.toBytes =
      some .UnsupportedMessageType := by
    unfold validate_encryption_inputs
    rw [if_neg (by rcases hk with h | h | h <;> omega),
      if_neg (by simpa [List.length_eq_zero] using hpt),
      if_neg (not_not_intro hk), hdec]
    change (if cs.any (fun c => 127 < c) = true
      then some Err.UnsupportedMessageType else none) = _
    rw [if_pos hany]
  simp only [encrypt, Inp_toBytes_bytes, hv]

/-- Witness for C8: `encrypt(k, "héllo")` — the text is UTF-8-encoded to
`[104, 195, 169, 108, 108, 111]`, which decodes to characters containing
é = 233 > 127. -/
theorem encrypt_rejects_non_ascii_witness :
    encrypt kdfConst hmacConst saltConst (.bytes keyScenario)
      (.str [104, 233, 108, 108, 111]) 1 = .error .UnsupportedMessageType :=
  encrypt_rejects_non_ascii kdfConst hmacConst saltConst keyScenario (by decide)
    (.str [104, 233, 108, 108, 111]) (by decide) [104, 233, 108, 108, 111]
    (by decide) 233 (by decide) (by decide) 1

/-- C9: for a text key whose character count is not a valid key length but
whose UTF-8 encoding is, `encrypt` (which encodes before validating) accepts
the key, while `decrypt` (which validates the character count before
encoding) raises `InvalidKeyLength` on the very blob `encrypt` produced. -/
theorem str_key_asymmetry (kdf : Kdf) (hmacF : HmacF) (salt : Bytes) (w : Nat)
    (s : List Nat)
    (hsb : (utf8Encode s).length = 16 ∨ (utf8Encode s).length = 24 ∨
      (utf8Encode s).length = 32)
    (hsl : ¬(s.length = 16 ∨ s.length = 24 ∨ s.length = 32)) (hs0 : s.length ≠ 0)
    (pt : Bytes) (hpt : pt ≠ []) (hascii : ∀ x ∈ pt, x < 128)
    (hm32 : ∀ k m, (hmacF k m).length = 32) :
    ∃ blob, encrypt kdf hmacF salt (.str s) (.bytes pt) w = .ok blob ∧
      decrypt kdf hmacF (.str s) blob w = .error .InvalidKeyLength := by
  have htagl : (hmacF (((kdf (utf8Encode s) salt w).drop 16).take 16)
      (salt ++ (AES.new ((kdf (utf8Encode s) salt w).take 16)).encrypt_cbc pt
        ((((kdf (utf8Encode s) salt w).drop 16).drop 16).take 16))).length = 32 :=
    hm32 _ _
  refine ⟨hmacF (((kdf (utf8Encode s) salt w).drop 16).take 16)
      (salt ++ (AES.new ((kdf (utf8Encode s) salt w).take 16)).encrypt_cbc pt
        ((((kdf (utf8Encode s) salt w).drop 16).drop 16).take 16)) ++ salt ++
      (AES.new ((kdf (utf8Encode s) salt w).take 16)).encrypt_cbc pt
        ((((kdf (utf8Encode s) salt w).drop 16).drop 16).take 16), ?_, ?_⟩
  · simp only [encrypt, Inp.toBytes, validate_enc_ok hsb hpt hascii, get_key_iv_eq]
    simp only [htagl]
    rw [if_true]
  · have hne : hmacF (((kdf (utf8Encode s) salt w).drop 16).take 16)
        (salt ++ (AES.new ((kdf (utf8Encode s) salt w).take 16)).encrypt_cbc pt
          ((((kdf (utf8Encode s) salt w).drop 16).drop 16).take 16)) ++ salt ++
        (AES.new ((kdf (utf8Encode s) salt w).take 16)).encrypt_cbc pt
          ((((kdf (utf8Encode s) salt w).drop 16).drop 16).take 16) ≠ [] := by
      intro hc
      have := congrArg List.length hc
      rw [List.length_append, List.length_append, htagl] at this
      simp at this
    simp only [decrypt,
      validate_dec_invalid_key (Inp.str s) _ (by simpa [Inp.len] using hs0) hne
        (by simpa [Inp.len] using hsl)]

/-- Witness for C9: eight copies of é (code point 233) encode to 16 bytes, so
encrypt accepts the text key but decrypt rejects it. -/
theorem str_key_asymmetry_witness :
    ∃ blob, encrypt kdfConst hmacConst saltConst (.str (List.replicate 8 233))
        (.bytes [104]) 1 = .ok blob ∧
      decrypt kdfConst hmacConst (.str (List.replicate 8 233)) blob 1 =
        .error .InvalidKeyLength :=
  str_key_asymmetry kdfConst hmacConst saltConst 1 (List.replicate 8 233)
    (by decide) (by decide) (by decide) [104] (by decide) (by decide)
    (fun _ _ => rfl)

/-- C10: the cipher key handed to the block cipher by `get_key_iv` is always
the first 16 bytes of the PBKDF2 output, whatever the master key, so the
`AES` instance used by `encrypt` and `decrypt` always has exactly 10 rounds;
the 24- and 32-byte branches of the round-count mapping are never exercised
through the public API. -/
theorem derived_cipher_key_is_16_bytes (kdf : Kdf)
    (hkdfl : ∀ pw s w, (kdf pw s w).length = 48) (pw salt : Bytes) (w : Nat) :
    ((get_key_iv kdf pw salt w).1).length = 16 ∧
    (AES.new (get_key_iv kdf pw salt w).1).n_rounds = 10 := by
  have h1 : ((get_key_iv kdf pw salt w).1).length = 16 := by
    rw [get_key_iv_eq]
    exact take16_length (by rw [hkdfl]; omega)
  refine ⟨h1, ?_⟩
  rw [AES_new_n_rounds _ (Or.inl h1), if_pos h1]

/-- Witness for C10: the constant KDF with a 24-byte master key still yields a
16-byte cipher key and a 10-round instance. -/
theorem derived_cipher_key_is_16_bytes_witness :
    ((get_key_iv kdfConst (List.replicate 24 0) saltConst 1).1).length = 16 ∧
    (AES.new (get_key_iv kdfConst (List.replicate 24 0) saltConst 1).1).n_rounds = 10 :=
  derived_cipher_key_is_16_bytes kdfConst (fun _ _ _ => rfl)
    (List.replicate 24 0) saltConst 1

end AESLogic
